import Mathlib

/-!
# Verification of the keybase/release core (filename version parsing and the
promotion engine)

This file gives a shallow embedding, in Lean 4, of the core logic of the
`keybase/release` command-line tool:

* `version.Parse` / `version.ParseLinux` (src/version/version.go), including a
  faithful embedding of the `github.com/blang/semver` v3.1.0 parser and
  comparator that `Parse` delegates to;
* the release catalog loader `loadReleases`, `FindRelease` (src/update/s3.go);
* the promotion engine `PromoteRelease`, `CurrentUpdate`, `updateJSONName`,
  `urlString` (src/update/s3.go, src/update/util.go);
* the `ReleaseBroken` operation (src/update/s3.go).

Go strings are modelled as `List Char` (the artifact names handled by the tool
are ASCII, so byte indexing and rune indexing agree).  Go's `time.Time` is
modelled by `GoTime`: the absolute instant in Unix seconds together with the
wall-clock hour in the value's location.  The two external collaborators that
are not part of the repository are modelled by parameters:

* the timezone database behind `time.LoadLocation("America/New_York")` is
  modelled by a parameter `eh : Int → Nat` giving the US-Eastern wall-clock
  hour of an instant (`convertEastern` keeps the instant and replaces the
  wall-clock hour);
* Go's `sort.Sort` (standard library) is modelled by a parameter
  `sortImpl : List Release → List Release` constrained, where a theorem needs
  it, by `SortSpec`: the output is a permutation of the input that is sorted by
  the `ByRelease.Less` order.  This is exactly the documented contract of
  `sort.Sort`, which is *not* guaranteed to be stable.

The S3 object-store collaborator is modelled by `S3State` (listing, manifest
fetch+decode outcome, copy outcome, delete outcome); the mutating calls issued
by an operation are returned explicitly as a `List S3Action`.
-/

namespace KeybaseRelease

/-- Convert a Lean string literal to the `List Char` representation used for Go
strings throughout this development. -/
def cl (s : String) : List Char := s.data

/-! ## Characters and decimal digits

The character-class predicates are stated on ASCII code points (Go compares
bytes; all characters relevant to the tool are ASCII). -/

/-- Decimal digit characters `'0'..'9'` (codes 48–57); the `numbers` set of
blang/semver. -/
def isDig (c : Char) : Bool := 48 ≤ c.toNat && c.toNat ≤ 57

/-- The set of Go's `strings.IndexAny(name, "123456789")`: nonzero decimal
digits `'1'..'9'` (codes 49–57). -/
def isDig19 (c : Char) : Bool := 49 ≤ c.toNat && c.toNat ≤ 57

/-- ASCII letters `'a'..'z'` (97–122) and `'A'..'Z'` (65–90). -/
def isAsciiLetter (c : Char) : Bool :=
  (97 ≤ c.toNat && c.toNat ≤ 122) || (65 ≤ c.toNat && c.toNat ≤ 90)

/-- The `alphanum` character set of blang/semver: ASCII letters, digits and
the hyphen (the library's `alphas` string includes `'-'`). -/
def isSemverAlnum (c : Char) : Bool := isAsciiLetter c || isDig c || c == '-'

/-- POSIX `[[:alnum:]]`: ASCII letters and digits (no hyphen); used by the
Linux filename regex. -/
def isPosixAlnum (c : Char) : Bool := isAsciiLetter c || isDig c

/-- Numeric value of a decimal digit character. -/
def dval (c : Char) : Nat := c.toNat - 48

/-- The decimal digit character for a value `< 10`. -/
def digitChar (n : Nat) : Char := Char.ofNat (48 + n)

/-- Fuel-driven decimal rendering (structural recursion on the fuel, so that
it evaluates by kernel reduction); the fuel `n + 1` of `natToDec` always
suffices. -/
def natToDecAux : Nat → Nat → List Char
  | _, 0 => []
  | n, fuel + 1 =>
    if n < 10 then [digitChar n]
    else natToDecAux (n / 10) fuel ++ [digitChar (n % 10)]

/-- Go `%d` rendering of a natural number: most-significant digit first. -/
def natToDec (n : Nat) : List Char := natToDecAux n (n + 1)

theorem natToDecAux_fuel (f n : Nat) (h : n < f) : natToDecAux n f = natToDec n := by
  induction f using Nat.strong_induction_on generalizing n with
  | _ f ih =>
    match f with
    | 0 => omega
    | f' + 1 =>
      show natToDecAux n (f' + 1) = natToDecAux n (n + 1)
      unfold natToDecAux
      by_cases h10 : n < 10
      · rw [if_pos h10, if_pos h10]
      · rw [if_neg h10, if_neg h10]
        have hdiv : n / 10 < n := Nat.div_lt_self (by omega) (by omega)
        rw [ih f' (by omega) (n / 10) (by omega),
          ih n (by omega) (n / 10) hdiv]

/-- The recursive unfolding of `natToDec`. -/
theorem natToDec_unfold (n : Nat) :
    natToDec n = if n < 10 then [digitChar n]
      else natToDec (n / 10) ++ [digitChar (n % 10)] := by
  show natToDecAux n (n + 1) = _
  unfold natToDecAux
  by_cases h10 : n < 10
  · rw [if_pos h10, if_pos h10]
  · rw [if_neg h10, if_neg h10]
    rw [natToDecAux_fuel n (n / 10) (Nat.div_lt_self (by omega) (by omega))]

/-- Decimal reading of a digit string, as Go's `strconv.ParseUint` computes it
(most-significant digit first). -/
def decToNat (ds : List Char) : Nat :=
  ds.foldl (fun a c => 10 * a + dval c) 0

theorem decToNat_from (ds : List Char) (a : Nat) :
    ds.foldl (fun a c => 10 * a + dval c) a = a * 10 ^ ds.length + decToNat ds := by
  induction ds generalizing a with
  | nil => simp [decToNat]
  | cons c cs ih =>
    simp only [List.foldl_cons, decToNat, List.length_cons, Nat.mul_zero,
      Nat.zero_add]
    rw [ih (10 * a + dval c), ih (dval c)]
    ring

/-- Reading a concatenation of digit strings: positional arithmetic. -/
theorem decToNat_append (a b : List Char) :
    decToNat (a ++ b) = decToNat a * 10 ^ b.length + decToNat b := by
  show List.foldl _ 0 (a ++ b) = _
  rw [List.foldl_append, decToNat_from]
  rfl

theorem dval_digitChar (n : Nat) (h : n < 10) : dval (digitChar n) = n := by
  interval_cases n <;> rfl

theorem digitChar_dval (c : Char) (h : isDig c = true) : digitChar (dval c) = c := by
  simp only [isDig, Bool.and_eq_true, decide_eq_true_eq] at h
  have hv : 48 + dval c = c.toNat := by unfold dval; omega
  unfold digitChar
  rw [hv]
  exact Char.ofNat_toNat c

theorem isDig_digitChar (n : Nat) (h : n < 10) : isDig (digitChar n) = true := by
  interval_cases n <;> rfl

theorem decToNat_natToDec (n : Nat) : decToNat (natToDec n) = n := by
  induction n using Nat.strong_induction_on with
  | _ n ih =>
    rw [natToDec_unfold]
    by_cases h : n < 10
    · rw [if_pos h]
      simp [decToNat, dval_digitChar n h]
    · rw [if_neg h]
      rw [decToNat_append, ih (n / 10) (Nat.div_lt_self (by omega) (by omega))]
      have hm : decToNat [digitChar (n % 10)] = n % 10 := by
        simp [decToNat, dval_digitChar (n % 10) (Nat.mod_lt n (by omega))]
      rw [hm]
      simp only [List.length_cons, List.length_nil, pow_one]
      omega

theorem natToDec_digits (n : Nat) : ∀ c ∈ natToDec n, isDig c = true := by
  induction n using Nat.strong_induction_on with
  | _ n ih =>
    rw [natToDec_unfold]
    by_cases h : n < 10
    · rw [if_pos h]
      intro c hc
      simp only [List.mem_singleton] at hc
      subst hc
      exact isDig_digitChar n h
    · rw [if_neg h]
      intro c hc
      rcases List.mem_append.1 hc with h1 | h2
      · exact ih (n / 10) (Nat.div_lt_self (by omega) (by omega)) c h1
      · simp only [List.mem_singleton] at h2
        subst h2
        exact isDig_digitChar _ (Nat.mod_lt n (by omega))

theorem natToDec_ne_nil (n : Nat) : natToDec n ≠ [] := by
  rw [natToDec_unfold]
  by_cases h : n < 10
  · rw [if_pos h]; simp
  · rw [if_neg h]; simp

/-- The leading digit of a positive number is not `'0'`. -/
theorem natToDec_head_ne_zero (n : Nat) (hn : 1 ≤ n) :
    ∀ c cs, natToDec n = c :: cs → 1 ≤ dval c := by
  induction n using Nat.strong_induction_on with
  | _ n ih =>
    intro c cs heq
    rw [natToDec_unfold] at heq
    by_cases h : n < 10
    · rw [if_pos h] at heq
      have hc : digitChar n = c := by
        injection heq
      rw [← hc, dval_digitChar n h]
      exact hn
    · rw [if_neg h] at heq
      have hd : 1 ≤ n / 10 := by omega
      rcases hne : natToDec (n / 10) with _ | ⟨c', cs'⟩
      · exact absurd hne (natToDec_ne_nil _)
      · rw [hne] at heq
        simp only [List.cons_append] at heq
        have hc : c' = c := by injection heq
        rw [← hc]
        exact ih (n / 10) (Nat.div_lt_self (by omega) (by omega)) hd c' cs' hne

theorem decToNat_pos (c : Char) (cs : List Char) (h : 1 ≤ dval c) :
    1 ≤ decToNat (c :: cs) := by
  have hsplit : (c :: cs) = [c] ++ cs := rfl
  rw [hsplit, decToNat_append]
  have h1 : decToNat [c] = dval c := by simp [decToNat]
  rw [h1]
  have h2 : 1 ≤ 10 ^ cs.length := Nat.one_le_pow _ _ (by omega)
  nlinarith

/-- Rendering is a section of reading: a nonempty digit string whose leading
digit is nonzero is recovered from its value. -/
theorem natToDec_decToNat (ds : List Char) (hd : ∀ c ∈ ds, isDig c = true)
    (hne : ds ≠ []) (hlead : ∀ c cs, ds = c :: cs → 1 ≤ dval c) :
    natToDec (decToNat ds) = ds := by
  induction ds using List.reverseRecOn with
  | nil => exact absurd rfl hne
  | append_singleton init b ih =>
    have hb : isDig b = true := hd b (by simp)
    have hbv : dval b < 10 := by
      simp only [isDig, Bool.and_eq_true, decide_eq_true_eq] at hb
      unfold dval; omega
    have hbD : isDig b = true := hb
    cases init with
    | nil =>
      simp only [List.nil_append]
      have h1 : decToNat [b] = dval b := by simp [decToNat]
      rw [h1]
      rw [natToDec_unfold, if_pos hbv, digitChar_dval b hbD]
    | cons c cs =>
      have hdinit : ∀ x ∈ c :: cs, isDig x = true := by
        intro x hx
        apply hd
        simp only [List.cons_append, List.mem_cons, List.mem_append] at hx ⊢
        tauto
      have hc1 : 1 ≤ dval c := hlead c (cs ++ [b]) rfl
      have hlead' : ∀ x xs, c :: cs = x :: xs → 1 ≤ dval x := by
        intro x xs hxx
        have hcx : c = x := by injection hxx
        rw [← hcx]
        exact hc1
      have hm : 1 ≤ decToNat (c :: cs) := decToNat_pos c cs hc1
      have hcc : (c :: cs ++ [b]) = (c :: cs) ++ [b] := rfl
      rw [hcc, decToNat_append]
      have h1 : decToNat [b] = dval b := by simp [decToNat]
      rw [h1]
      simp only [List.length_cons, List.length_nil, Nat.zero_add, pow_one]
      set m := decToNat (c :: cs) with hmdef
      have hge : ¬ (m * 10 + dval b < 10) := by nlinarith
      rw [natToDec_unfold, if_neg hge]
      have hdiv : (m * 10 + dval b) / 10 = m := by omega
      have hmod : (m * 10 + dval b) % 10 = dval b := by omega
      rw [hdiv, hmod, ih hdinit (by simp) hlead', digitChar_dval b hbD]

/-- Length of the decimal rendering: `10 ^ k ≤ n < 10 ^ (k+1)` renders with
`k + 1` digits. -/
theorem natToDec_length (k n : Nat) (h1 : 10 ^ k ≤ n) (h2 : n < 10 ^ (k + 1)) :
    (natToDec n).length = k + 1 := by
  induction k generalizing n with
  | zero =>
    rw [natToDec_unfold]
    have h10 : n < 10 := by simpa using h2
    rw [if_pos h10]
    rfl
  | succ k ih =>
    have hn10 : ¬ n < 10 := by
      have hp : (10 : Nat) ≤ 10 ^ (k + 1) := by
        calc (10 : Nat) = 10 ^ 1 := by norm_num
        _ ≤ 10 ^ (k + 1) := Nat.pow_le_pow_right (by omega) (by omega)
      omega
    have hlo : 10 ^ k ≤ n / 10 := by
      rw [Nat.le_div_iff_mul_le (by omega)]
      rw [Nat.pow_succ] at h1
      omega
    have hhi : n / 10 < 10 ^ (k + 1) := by
      rw [Nat.div_lt_iff_lt_mul (by omega)]
      rw [Nat.pow_succ 10 (k + 1)] at h2
      omega
    rw [natToDec_unfold, if_neg hn10]
    simp only [List.length_append, List.length_cons, List.length_nil]
    rw [ih (n / 10) hlo hhi]

/-! ## Go string primitives

Embeddings of the Go standard-library string functions used by the tool, on
`List Char`. -/

/-- Go `strings.HasSuffix(s, suffix)`. -/
def hasSuffixCL (s suff : List Char) : Bool :=
  decide (suff.length ≤ s.length) && s.drop (s.length - suff.length) == suff

/-- Index of the first character satisfying `p`, or `none`.  Instantiated with
a set-membership predicate this is Go `strings.IndexAny`; with an equality
predicate it is `strings.IndexRune`. -/
def firstIdxP (p : Char → Bool) : List Char → Option Nat
  | [] => none
  | c :: cs => if p c then some 0 else (firstIdxP p cs).map (· + 1)

/-- Split at the first occurrence of the character `sep`: returns the part
before and the part after (separator consumed), or `none`. -/
def breakCh (sep : Char) : List Char → Option (List Char × List Char)
  | [] => none
  | c :: cs =>
    if c = sep then some ([], cs)
    else (breakCh sep cs).map (fun pr => (c :: pr.1, pr.2))

/-- Go `strings.SplitN(s, sep, n)` for a single-character separator and
`n ≥ 0`. -/
def splitNCh (sep : Char) : List Char → Nat → List (List Char)
  | _, 0 => []
  | s, 1 => [s]
  | s, n + 2 =>
    match breakCh sep s with
    | none => [s]
    | some (a, rest) => a :: splitNCh sep rest (n + 1)

/-- Go `strings.Split(s, sep)` (unbounded) for a single-character
separator. -/
def splitAllCh (sep : Char) : List Char → List (List Char)
  | [] => [[]]
  | c :: cs =>
    match splitAllCh sep cs with
    | [] => [[c]]
    | g :: gs => if c = sep then [] :: g :: gs else (c :: g) :: gs

/-- blang/semver `containsOnly(s, set)`: every character of `s` lies in the
set. -/
def containsOnly (s : List Char) (p : Char → Bool) : Bool := s.all p

/-- blang/semver `hasLeadingZeroes(s)`: length above one and a leading
`'0'`. -/
def hasLeadingZeroes (s : List Char) : Bool :=
  match s with
  | c :: _ :: _ => c == '0'
  | _ => false

/-- Go `strings.Join(elems, " ")`. -/
def joinSpace : List (List Char) → List Char
  | [] => []
  | [s] => s
  | s :: rest => s ++ ' ' :: joinSpace rest

/-- `filepath.Ext(path)`: iterate from the end of the path until a path
separator; on the first `'.'` return the number of characters from that dot to
the end (dot excluded).  `none` when there is no dot in the final path
element. -/
def extSearch : List Char → Nat → Option Nat
  | [], _ => none
  | c :: cs, k =>
    if c = '/' then none
    else if c = '.' then some k
    else extSearch cs (k + 1)

/-- `removeExt` (src/version/version.go): strip `filepath.Ext(name)` when it
is nonempty. -/
def removeExt (name : List Char) : List Char :=
  match extSearch name.reverse 0 with
  | none => name
  | some k => name.take (name.length - (k + 1))

/-! ### Lemmas about the string primitives -/

theorem firstIdxP_append_none (p : Char → Bool) (a b : List Char)
    (ha : ∀ c ∈ a, p c = false) :
    firstIdxP p (a ++ b) = (firstIdxP p b).map (· + a.length) := by
  induction a with
  | nil => simp
  | cons c cs ih =>
    have hc : p c = false := ha c (by simp)
    simp only [List.cons_append, firstIdxP, hc, Bool.false_eq_true, if_false,
      List.append_eq]
    rw [ih (fun x hx => ha x (by simp [hx]))]
    cases firstIdxP p b <;> simp
    omega

/-- The first `p`-character of `a ++ c :: b` sits at index `a.length` when `a`
is `p`-free and `p c` holds. -/
theorem firstIdxP_boundary (p : Char → Bool) (a b : List Char) (c : Char)
    (ha : ∀ x ∈ a, p x = false) (hc : p c = true) :
    firstIdxP p (a ++ c :: b) = some a.length := by
  rw [firstIdxP_append_none p a _ ha]
  simp [firstIdxP, hc]

theorem breakCh_boundary (sep : Char) (a b : List Char)
    (ha : ∀ x ∈ a, x ≠ sep) :
    breakCh sep (a ++ sep :: b) = some (a, b) := by
  induction a with
  | nil => simp [breakCh]
  | cons c cs ih =>
    have hc : c ≠ sep := ha c (by simp)
    simp only [List.cons_append, breakCh, hc, if_false, List.append_eq]
    rw [ih (fun x hx => ha x (by simp [hx]))]
    rfl

theorem splitAllCh_single (sep : Char) (a : List Char)
    (ha : ∀ x ∈ a, x ≠ sep) :
    splitAllCh sep a = [a] := by
  induction a with
  | nil => rfl
  | cons c cs ih =>
    have hc : c ≠ sep := ha c (by simp)
    simp only [splitAllCh]
    rw [ih (fun x hx => ha x (by simp [hx]))]
    simp [hc]

/-- `SplitN(_, sep, 3)` on a string with exactly two separator-free leading
components. -/
theorem splitNCh_three (sep : Char) (a b c : List Char)
    (ha : ∀ x ∈ a, x ≠ sep) (hb : ∀ x ∈ b, x ≠ sep) :
    splitNCh sep (a ++ sep :: (b ++ sep :: c)) 3 = [a, b, c] := by
  show splitNCh sep _ (1 + 2) = _
  unfold splitNCh
  rw [breakCh_boundary sep a _ ha]
  show _ :: splitNCh sep _ (0 + 2) = _
  unfold splitNCh
  rw [breakCh_boundary sep b _ hb]
  rfl

theorem take_at_concat (a b : List Char) (c : Char) :
    (a ++ c :: b).take a.length = a := by
  simp [List.take_left a (c :: b)]

theorem drop_at_concat (a b : List Char) (c : Char) :
    (a ++ c :: b).drop (a.length + 1) = b := by
  induction a with
  | nil => rfl
  | cons x xs ih => simp [ih]

theorem extSearch_boundary (xs rest : List Char) (k : Nat)
    (hxs : ∀ x ∈ xs, x ≠ '.' ∧ x ≠ '/') :
    extSearch (xs ++ '.' :: rest) k = some (k + xs.length) := by
  induction xs generalizing k with
  | nil => simp [extSearch]
  | cons c cs ih =>
    have hc := hxs c (by simp)
    simp only [List.cons_append, extSearch, hc.1, hc.2, if_false,
      List.append_eq]
    rw [ih (k + 1) (fun x hx => hxs x (by simp [hx]))]
    simp only [List.length_cons]
    congr 1
    omega

/-- `removeExt` on a name of shape `core ++ "." ++ ext` with a dot-free,
slash-free extension strips exactly the final `"." ++ ext`. -/
theorem removeExt_concat (core ext : List Char)
    (hext : ∀ x ∈ ext, x ≠ '.' ∧ x ≠ '/') :
    removeExt (core ++ '.' :: ext) = core := by
  unfold removeExt
  have hrev : (core ++ '.' :: ext).reverse = ext.reverse ++ '.' :: core.reverse := by
    simp
  rw [hrev, extSearch_boundary ext.reverse core.reverse 0
    (fun x hx => hext x (List.mem_reverse.1 hx))]
  simp only [Nat.zero_add, List.length_reverse]
  have hlen : (core ++ '.' :: ext).length = core.length + (ext.length + 1) := by
    simp
  rw [hlen]
  have : core.length + (ext.length + 1) - (ext.length + 1) = core.length := by omega
  rw [this]
  simp [List.take_left core ('.' :: ext)]

/-! ## Go `time.Time`

`GoTime` records the absolute instant (Unix seconds) together with the
wall-clock hour of the value in its location — the only two observations the
tool makes of a `time.Time` (`Before`, `Since`, and `Clock`'s hour). -/

structure GoTime where
  sec : Int
  hour : Nat
  deriving DecidableEq, Repr

/-- `time.Unix(0, 0)`: the Unix epoch (the wall-clock hour field is never
inspected for this sentinel; it is fixed to the UTC value 0). -/
def epochTime : GoTime := ⟨0, 0⟩

/-- The zero `time.Time{}` (January 1, year 1, 00:00:00 UTC) that Go's
`time.Parse` returns along with an error. -/
def zeroGoTime : GoTime := ⟨-62135596800, 0⟩

/-- Days from the Unix epoch to the Gregorian civil date `(y, m, d)` (the
standard `days_from_civil` algorithm, mirroring Go's internal calendar
arithmetic). -/
def daysFromCivil (y m d : Int) : Int :=
  let y' := if m ≤ 2 then y - 1 else y
  let era := (if 0 ≤ y' then y' else y' - 399) / 400
  let yoe := y' - era * 400
  let mp := (m + 9) % 12
  let doy := (153 * mp + 2) / 5 + d - 1
  let doe := yoe * 365 + yoe / 4 - yoe / 100 + doy
  era * 146097 + doe - 719468

/-- The UTC instant of the civil datetime, with the (UTC) wall-clock hour. -/
def mkUTC (y mo d h mi s : Nat) : GoTime :=
  ⟨86400 * daysFromCivil y mo d + 3600 * h + 60 * mi + s, h⟩

def isLeapYear (y : Nat) : Bool :=
  (y % 4 == 0 && y % 100 != 0) || y % 400 == 0

def daysInMonth (y mo : Nat) : Nat :=
  match mo with
  | 1 => 31 | 3 => 31 | 5 => 31 | 7 => 31 | 8 => 31 | 10 => 31 | 12 => 31
  | 4 => 30 | 6 => 30 | 9 => 30 | 11 => 30
  | 2 => if isLeapYear y then 29 else 28
  | _ => 0

/-- Go `time.Parse("20060102150405", s)`: fourteen decimal digits read as
`YYYYMMDDhhmmss` in UTC; `none` models the error cases (wrong length,
non-digit input, or a component out of range — Go validates month, day, hour,
minute and second ranges). -/
def timeParse14 (ds : List Char) : Option GoTime :=
  if ds.length = 14 ∧ ds.all isDig then
    let y := decToNat (ds.take 4)
    let mo := decToNat ((ds.drop 4).take 2)
    let d := decToNat ((ds.drop 6).take 2)
    let h := decToNat ((ds.drop 8).take 2)
    let mi := decToNat ((ds.drop 10).take 2)
    let s := decToNat ((ds.drop 12).take 2)
    if 1 ≤ mo ∧ mo ≤ 12 ∧ 1 ≤ d ∧ d ≤ daysInMonth y mo ∧ h ≤ 23 ∧ mi ≤ 59 ∧
        s ≤ 59 then
      some (mkUTC y mo d h mi s)
    else none
  else none

/-! ## blang/semver v3.1.0

Embedding of the `semver.Make` (= `semver.Parse`) parser and the `Compare`
order used by `PromoteRelease`.  The repository pins
`github.com/blang/semver v3.1.0`. -/

/-- A pre-release identifier: numeric (`IsNum`, `VersionNum`) or
alphanumeric (`VersionStr`). -/
inductive PRVersion where
  | num (n : Nat)
  | str (s : List Char)
  deriving DecidableEq, Repr

/-- `semver.Version`: major/minor/patch, pre-release identifiers, build
metadata. -/
structure SemVersion where
  major : Nat
  minor : Nat
  patch : Nat
  pre : List PRVersion
  build : List (List Char)
  deriving DecidableEq, Repr

/-- Go error values are modelled by their message. -/
def GoErr := String
deriving DecidableEq, Repr

deriving instance DecidableEq for Except

/-- `strconv.ParseUint(s, 10, 64)` on an all-digit string: errors on empty
input and on 64-bit overflow. -/
def parseUint64 (ds : List Char) : Except GoErr Nat :=
  if ds.isEmpty then .error "invalid syntax"
  else
    let v := decToNat ds
    if v < 2 ^ 64 then .ok v else .error "value out of range"

/-- blang/semver `NewPRVersion`. -/
def newPRVersion (s : List Char) : Except GoErr PRVersion :=
  if s.isEmpty then .error "Prerelease is empty"
  else if containsOnly s isDig then
    if hasLeadingZeroes s then .error "Numeric PreRelease version must not contain leading zeroes"
    else match parseUint64 s with
      | .error e => .error e
      | .ok n => .ok (.num n)
  else if containsOnly s isSemverAlnum then .ok (.str s)
  else .error "Invalid character(s) found in prerelease"

/-- One numeric component of `semver.Parse` (major, minor or patch): character
check, leading-zero check, `ParseUint`. -/
def parseNumComponent (s : List Char) : Except GoErr Nat :=
  if ¬ containsOnly s isDig then .error "Invalid character(s) found in number"
  else if hasLeadingZeroes s then .error "number must not contain leading zeroes"
  else parseUint64 s

/-- Validate the build metadata identifiers (nonempty, `alphanum` only). -/
def checkBuild : List (List Char) → Except GoErr Unit
  | [] => .ok ()
  | s :: rest =>
    if s.isEmpty then .error "Build meta data is empty"
    else if ¬ containsOnly s isSemverAlnum then .error "Invalid character(s) found in build meta data"
    else checkBuild rest

/-- Parse the pre-release identifiers in order, stopping at the first
error. -/
def parsePre : List (List Char) → Except GoErr (List PRVersion)
  | [] => .ok []
  | s :: rest =>
    match newPRVersion s with
    | .error e => .error e
    | .ok pr =>
      match parsePre rest with
      | .error e => .error e
      | .ok prs => .ok (pr :: prs)

/-- `semver.Make` (= `semver.Parse`) of blang/semver v3.1.0. -/
def semverMake (s : List Char) : Except GoErr SemVersion :=
  if s.isEmpty then .error "Version string empty"
  else
    match splitNCh '.' s 3 with
    | [p0, p1, p2] =>
      match parseNumComponent p0 with
      | .error e => .error e
      | .ok major =>
        match parseNumComponent p1 with
        | .error e => .error e
        | .ok minor =>
          let (build, patchStr1) :=
            match firstIdxP (· == '+') p2 with
            | some i => (splitAllCh '.' (p2.drop (i + 1)), p2.take i)
            | none => ([], p2)
          let (prerelease, patchStr) :=
            match firstIdxP (· == '-') patchStr1 with
            | some i => (splitAllCh '.' (patchStr1.drop (i + 1)), patchStr1.take i)
            | none => ([], patchStr1)
          match parseNumComponent patchStr with
          | .error e => .error e
          | .ok patch =>
            match parsePre prerelease with
            | .error e => .error e
            | .ok pre =>
              match checkBuild build with
              | .error e => .error e
              | .ok _ => .ok ⟨major, minor, patch, pre, build⟩
    | _ => .error "No Major.Minor.Patch elements found"

/-- Lexicographic comparison of ASCII strings (Go `string` comparison),
as a three-valued result. -/
def lexCmp : List Char → List Char → Int
  | [], [] => 0
  | [], _ :: _ => -1
  | _ :: _, [] => 1
  | a :: as, b :: bs =>
    if a.toNat < b.toNat then -1
    else if b.toNat < a.toNat then 1
    else lexCmp as bs

def cmpNat (a b : Nat) : Int := if a = b then 0 else if a < b then -1 else 1

/-- blang/semver `PRVersion.Compare`: numeric identifiers sort below
alphanumeric ones; numerics compare by value, alphanumerics
lexicographically. -/
def prCompare : PRVersion → PRVersion → Int
  | .num _, .str _ => -1
  | .str _, .num _ => 1
  | .num a, .num b => cmpNat a b
  | .str a, .str b =>
    if a = b then 0 else if lexCmp a b = 1 then 1 else -1

def preListCompare : List PRVersion → List PRVersion → Int
  | [], [] => 0
  | [], _ :: _ => -1
  | _ :: _, [] => 1
  | a :: as, b :: bs =>
    let c := prCompare a b
    if c = 0 then preListCompare as bs else c

/-- blang/semver `Version.Compare`: major, minor, patch numerically; a version
with pre-release identifiers sorts below the same version without; pre-release
lists compare element-wise, shorter-is-smaller on a common prefix.  Build
metadata is ignored. -/
def svCompare (v o : SemVersion) : Int :=
  if v.major ≠ o.major then cmpNat v.major o.major
  else if v.minor ≠ o.minor then cmpNat v.minor o.minor
  else if v.patch ≠ o.patch then cmpNat v.patch o.patch
  else
    match v.pre, o.pre with
    | [], [] => 0
    | [], _ :: _ => 1
    | _ :: _, [] => -1
    | a :: as, b :: bs => preListCompare (a :: as) (b :: bs)

/-- `fmt.Sprintf("%d.%d.%d", v.Major, v.Minor, v.Patch)`. -/
def verList (sv : SemVersion) : List Char :=
  natToDec sv.major ++ '.' :: natToDec sv.minor ++ '.' :: natToDec sv.patch

/-! ## `version.Parse` (src/version/version.go)

The result quadruple `(version, t, commit, err)` of the Go function.  The
Linux path can crash (index out of range on a failed regex match), so the
dispatching `Parse` returns `Except GoCrash ParseOut` where `GoCrash` is the
runtime panic message. -/

def GoCrash := String
deriving DecidableEq, Repr

structure ParseOut where
  version : List Char
  t : GoTime
  commit : List Char
  err : Option GoErr
  deriving DecidableEq, Repr

/-- `sversion.Pre[0].VersionNum`: the numeric value of the first pre-release
identifier (`0` for an alphanumeric identifier, matching the Go struct's zero
value). -/
def preNumOf (sv : SemVersion) : Nat :=
  match sv.pre with
  | .num n :: _ => n
  | _ => 0

/-- Lines 40–44 of src/version/version.go: join the build identifiers with a
space and clear the result unless its length is exactly 7. -/
def commitOf (sv : SemVersion) : List Char :=
  if (joinSpace sv.build).length ≠ 7 then [] else joinSpace sv.build

/-- The general (non-Linux) path of `version.Parse`, lines 21–52 of
src/version/version.go.  Mirrors the Go control flow exactly, including the
named-return behaviour: a missing numeric start returns zero values with a
`nil` error, and the `version`/`commit` values assigned before a later failure
are kept in the result. -/
def parseGeneral (name : List Char) : ParseOut :=
  match firstIdxP isDig19 name with
  | none => ⟨[], epochTime, [], none⟩
  | some start =>
    let verstr := removeExt (name.drop start)
    match semverMake verstr with
    | .error e => ⟨[], epochTime, [], some e⟩
    | .ok sv =>
      if sv.pre.length ≠ 1 then
        ⟨verList sv, epochTime, [], some "Invalid prerelease"⟩
      else
        match timeParse14 (natToDec (preNumOf sv)) with
        | none => ⟨verList sv, zeroGoTime, commitOf sv, some "cannot parse time"⟩
        | some t => ⟨verList sv, t, commitOf sv, none⟩

/-! Characterisations of `parseGeneral` by the stage at which the Go function
returns. -/

theorem parseGeneral_eq_none (name : List Char)
    (h : firstIdxP isDig19 name = none) :
    parseGeneral name = ⟨[], epochTime, [], none⟩ := by
  unfold parseGeneral
  rw [h]

theorem parseGeneral_semver_err (name : List Char) (i : Nat) (e : GoErr)
    (hi : firstIdxP isDig19 name = some i)
    (he : semverMake (removeExt (name.drop i)) = .error e) :
    parseGeneral name = ⟨[], epochTime, [], some e⟩ := by
  unfold parseGeneral
  rw [hi]
  simp only [he]

theorem parseGeneral_pre_err (name : List Char) (i : Nat) (sv : SemVersion)
    (hi : firstIdxP isDig19 name = some i)
    (hs : semverMake (removeExt (name.drop i)) = .ok sv)
    (hlen : sv.pre.length ≠ 1) :
    parseGeneral name = ⟨verList sv, epochTime, [], some "Invalid prerelease"⟩ := by
  unfold parseGeneral
  rw [hi]
  simp only [hs]
  rw [if_pos hlen]

theorem parseGeneral_time_err (name : List Char) (i : Nat) (sv : SemVersion)
    (hi : firstIdxP isDig19 name = some i)
    (hs : semverMake (removeExt (name.drop i)) = .ok sv)
    (hlen : sv.pre.length = 1)
    (ht : timeParse14 (natToDec (preNumOf sv)) = none) :
    parseGeneral name = ⟨verList sv, zeroGoTime, commitOf sv, some "cannot parse time"⟩ := by
  unfold parseGeneral
  rw [hi]
  simp only [hs]
  rw [if_neg (by omega)]
  simp only [ht]

theorem parseGeneral_ok_eq (name : List Char) (i : Nat) (sv : SemVersion)
    (t : GoTime)
    (hi : firstIdxP isDig19 name = some i)
    (hs : semverMake (removeExt (name.drop i)) = .ok sv)
    (hlen : sv.pre.length = 1)
    (ht : timeParse14 (natToDec (preNumOf sv)) = some t) :
    parseGeneral name = ⟨verList sv, t, commitOf sv, none⟩ := by
  unfold parseGeneral
  rw [hi]
  simp only [hs]
  rw [if_neg (by omega)]
  simp only [ht]

/-! ### The Linux regex

`ParseLinux` matches `(\d+\.\d+\.\d+)[-.](\d+)[+.]([[:alnum:]]+)` with Go's
`regexp` (leftmost match, greedy quantifiers with backtracking) and uses the
first match's three capture groups.  The matcher below is a specialised
backtracking matcher for exactly this pattern. -/

/-- Try the greedy lengths of a `+`-quantified character class: `k` receives
the candidate match and the rest of the input, longest candidates first.
`i` is the number of characters still allowed (starting from the maximal
run). -/
def tryPlus (s : List Char) (k : List Char → List Char → Option α) :
    Nat → Option α
  | 0 => none
  | i + 1 =>
    match k (s.take (i + 1)) (s.drop (i + 1)) with
    | some r => some r
    | none => tryPlus s k i

/-- Greedy `p+`: longest-first over the maximal run of `p`-characters. -/
def matchPlus (p : Char → Bool) (s : List Char)
    (k : List Char → List Char → Option α) : Option α :=
  tryPlus s k (s.takeWhile p).length

/-- Match one literal class character (`[-.]`, `[+.]`, or a literal dot). -/
def matchCls (p : Char → Bool) (s : List Char)
    (k : List Char → Option α) : Option α :=
  match s with
  | [] => none
  | c :: cs => if p c then k cs else none

/-- Match the full Linux pattern anchored at the start of `s`, returning the
three capture groups. -/
def linuxMatchAt (s : List Char) : Option (List Char × List Char × List Char) :=
  matchPlus isDig s fun d1 s1 =>
  matchCls (· == '.') s1 fun s2 =>
  matchPlus isDig s2 fun d2 s3 =>
  matchCls (· == '.') s3 fun s4 =>
  matchPlus isDig s4 fun d3 s5 =>
  matchCls (fun c => c == '-' || c == '.') s5 fun s6 =>
  matchPlus isDig s6 fun g2 s7 =>
  matchCls (fun c => c == '+' || c == '.') s7 fun s8 =>
  matchPlus isPosixAlnum s8 fun g3 _ =>
  some (d1 ++ '.' :: d2 ++ '.' :: d3, g2, g3)

/-- Leftmost match of the Linux pattern (the first element of Go's
`FindAllStringSubmatch`). -/
def linuxFirstMatch : List Char → Option (List Char × List Char × List Char)
  | [] => none
  | c :: cs =>
    match linuxMatchAt (c :: cs) with
    | some r => some r
    | none => linuxFirstMatch cs

/-- `version.ParseLinux` (src/version/version.go lines 58–66).  The Go code
indexes `parts[0]` without checking that the regex matched: when there is no
match, `FindAllStringSubmatch` returns `nil` and the access crashes with an
index-out-of-range runtime panic.  On a match, the `time.Parse` error is
discarded (`t, _ = ...`), leaving the zero `time.Time` when the date digits do
not form a valid 14-digit timestamp, and the returned `err` is always
`nil`. -/
def parseLinux (name : List Char) : Except GoCrash ParseOut :=
  match linuxFirstMatch name with
  | none => .error "runtime error: index out of range [0] with length 0"
  | some (g1, g2, g3) =>
    .ok ⟨g1, (timeParse14 g2).getD zeroGoTime, g3, none⟩

/-- `version.Parse` (src/version/version.go lines 16–53): names ending in
`.deb` or `.rpm` take the Linux path, all others the general path. -/
def parse (name : List Char) : Except GoCrash ParseOut :=
  if hasSuffixCL name (cl ".deb") || hasSuffixCL name (cl ".rpm") then
    parseLinux name
  else
    .ok (parseGeneral name)

/-! ## The update/s3 layer (src/update/s3.go, src/update/util.go) -/

/-- `Release` (src/update/s3.go).  The `URL` and `DateString` fields (pure
presentation, computed from the same data) are omitted; the source field names
`Name`, `Key`, `Version`, `Date`, `Commit` are kept in lower case. -/
structure Release where
  name : List Char
  key : List Char
  version : List Char
  date : GoTime
  commit : List Char
  deriving DecidableEq, Repr

/-- `ByRelease.Less(i, j)` (src/update/s3.go): reverse date order,
`s[j].Date.Before(s[i].Date)`. -/
def byReleaseLess (ri rj : Release) : Bool := rj.date.sec < ri.date.sec

/-- `Platform` (src/update/s3.go).  `pfx`/`pfxSupport` embed the source fields
`Prefix`/`PrefixSupport`. -/
structure Platform where
  name : List Char
  pfx : List Char
  pfxSupport : List Char
  suffix : List Char
  latestName : List Char
  deriving DecidableEq, Repr

def platformDarwin : Platform :=
  ⟨cl "darwin", cl "darwin/", cl "darwin-support/", [], cl "Keybase.dmg"⟩

def platformLinuxDeb : Platform :=
  ⟨cl "deb", cl "linux_binaries/deb/", [], cl "_amd64.deb", cl "keybase_amd64.deb"⟩

def platformLinuxRPM : Platform :=
  ⟨cl "rpm", cl "linux_binaries/rpm/", [], cl ".x86_64.rpm", cl "keybase_amd64.rpm"⟩

def platformWindows : Platform :=
  ⟨cl "windows", cl "windows/", [], cl ".386.exe", cl "keybase_setup_386.exe"⟩

/-- `Platform.Files(release)` (src/update/s3.go): the storage paths associated
with a release on each platform. -/
def platformFiles (p : Platform) (r : Release) : List (List Char) :=
  if p.name = cl "darwin" then
    [cl "darwin/Keybase-" ++ r.version ++ cl ".dmg",
     cl "darwin-updates/Keybase-" ++ r.version ++ cl ".zip",
     cl "darwin-support/update-darwin-prod-" ++ r.version ++ cl ".json"]
  else if p.name = cl "deb" then
    [cl "linux_binaries/deb/keybase_" ++ r.version ++ cl "_i386.deb",
     cl "linux_binaries/deb/keybase_" ++ r.version ++ cl "_amd64.deb"]
  else if p.name = cl "rpm" then
    [cl "linux_binaries/rpm/keybase-" ++ r.version ++ cl "-1.x86_64.rpm",
     cl "linux_binaries/rpm/keybase-" ++ r.version ++ cl "-1.i386.rpm"]
  else if p.name = cl "windows" then
    [cl "windows/keybase_setup_gui_" ++ r.version ++ cl "_386.exe",
     cl "windows-updates/keybase_setup_gui_" ++ r.version ++ cl "_386.exe"]
  else []

/-- `url.QueryEscape`: unreserved ASCII (alphanumerics and `-_.~`) kept,
space to `'+'`, every other byte percent-encoded with upper-case hex. -/
def queryEscape (s : List Char) : List Char :=
  s.flatMap fun c =>
    if isPosixAlnum c || c == '-' || c == '_' || c == '.' || c == '~' then [c]
    else if c == ' ' then ['+']
    else
      let hex := fun (n : Nat) => if n < 10 then digitChar n else Char.ofNat (55 + n)
      ['%', hex (c.toNat / 16), hex (c.toNat % 16)]

/-- `urlString(bucketName, prefix, name)` (src/update/util.go). -/
def urlString (bucketName pfx name : List Char) : List Char :=
  if pfx.isEmpty then
    cl "https://s3.amazonaws.com/" ++ bucketName ++ '/' :: queryEscape name
  else
    cl "https://s3.amazonaws.com/" ++ bucketName ++ '/' :: (pfx ++ queryEscape name)

/-- `updateJSONName(channel, platformName, env)` (src/update/s3.go):
`update-<platform>-<env>.json`, or `update-<platform>-<env>-<channel>.json`
for a named channel. -/
def updateJSONName (channel platformName env : List Char) : List Char :=
  if channel.isEmpty then
    cl "update-" ++ platformName ++ '-' :: env ++ cl ".json"
  else
    cl "update-" ++ platformName ++ '-' :: env ++ '-' :: channel ++ cl ".json"

/-- `fmt.Sprintf("update-%s-%s-%s.json", platform.Name, env, release.Version)`:
the support-file manifest name for a release version. -/
def supportManifestName (platformName env version : List Char) : List Char :=
  cl "update-" ++ platformName ++ '-' :: env ++ '-' :: version ++ cl ".json"

/-- The `Update` manifest as far as the promotion engine reads it.  The
remaining fields of the Go struct (`Name`, `Description`, `PublishedAt`,
`Asset`, installer codes) are never consulted by `PromoteRelease`. -/
structure Update where
  version : List Char
  deriving DecidableEq, Repr

/-- `convertEastern` (src/update/s3.go): same instant, wall clock re-expressed
in `America/New_York`.  The timezone database is the collaborator parameter
`eh`, giving the Eastern wall-clock hour of an instant. -/
def convertEastern (eh : Int → Nat) (t : GoTime) : GoTime := ⟨t.sec, eh t.sec⟩

/-- Outcome of an S3-layer operation: a crash propagated from `version.Parse`,
a Go error return, or a value. -/
inductive Flow (α : Type) where
  | crash (msg : GoCrash)
  | fail (e : GoErr)
  | ok (v : α)
  deriving DecidableEq, Repr

/-- The object-store collaborator: listing by prefix, the combined
`GetObject` + `DecodeJSON` outcome for a manifest key (`CurrentUpdate`), and
the outcomes of `CopyObject(source, dest)` and `DeleteObject(key)` calls. -/
structure S3State where
  list : List Char → Except GoErr (List (List Char))
  getUpdate : List Char → Except GoErr Update
  copyErr : List Char → List Char → Option GoErr
  deleteErr : List Char → Option GoErr

/-- A mutating storage call issued by an operation. -/
inductive S3Action where
  | copy (src dst : List Char)
  | del (key : List Char)
  deriving DecidableEq, Repr

/-- The filtering and parsing pass of `loadReleases` (src/update/s3.go lines
80–103): keep keys with the suffix, drop `index.html`, parse each name (a
parse error is only logged; the release is still appended), convert the date
to Eastern. -/
def loadFiltered (eh : Int → Nat) (objects : List (List Char))
    (pfx suffix : List Char) : Except GoCrash (List Release) :=
  match objects with
  | [] => .ok []
  | k :: ks =>
    if hasSuffixCL k suffix then
      let name := k.drop pfx.length
      if name = cl "index.html" then loadFiltered eh ks pfx suffix
      else
        match parse name with
        | .error msg => .error msg
        | .ok po =>
          match loadFiltered eh ks pfx suffix with
          | .error msg => .error msg
          | .ok rest =>
            .ok (⟨name, k, po.version, convertEastern eh po.t, po.commit⟩ :: rest)
    else loadFiltered eh ks pfx suffix

/-- `loadReleases` (src/update/s3.go lines 80–111): filter and parse, sort
with Go's `sort.Sort(ByRelease(releases))` — modelled by the collaborator
parameter `sortImpl` — and truncate to the first `truncate` entries when
`truncate > 0`. -/
def loadReleases (sortImpl : List Release → List Release) (eh : Int → Nat)
    (objects : List (List Char)) (pfx suffix : List Char) (truncate : Int) :
    Except GoCrash (List Release) :=
  match loadFiltered eh objects pfx suffix with
  | .error msg => .error msg
  | .ok rels =>
    let sorted := sortImpl rels
    .ok (if 0 < truncate ∧ truncate < (sorted.length : Int) then
      sorted.take truncate.toNat
    else sorted)

/-- `Platform.FindRelease` (src/update/s3.go lines 273–296): list the
platform prefix, load the releases (truncate 0), and return the first one
that has the platform suffix and satisfies the predicate. -/
def findRelease (s : S3State) (sortImpl : List Release → List Release)
    (eh : Int → Nat) (p : Platform) (f : Release → Bool) :
    Flow (Option Release) :=
  match s.list p.pfx with
  | .error e => .fail e
  | .ok keys =>
    match loadReleases sortImpl eh keys p.pfx p.suffix 0 with
    | .error msg => .crash msg
    | .ok rels => .ok (rels.find? fun r => hasSuffixCL r.key p.suffix && f r)

/-- The promotion eligibility predicate: the closure passed to `FindRelease`
by `PromoteRelease` (src/update/s3.go lines 483–493).  `now` and `delay` are
in seconds (Go uses nanoseconds; the scale is uniform). -/
def promotePred (now delay : Int) (beforeHourEastern : Int) (r : Release) :
    Bool :=
  if delay ≠ 0 ∧ now - r.date.sec < delay then false
  else if beforeHourEastern ≠ 0 ∧ (r.date.hour : Int) ≥ beforeHourEastern then
    false
  else true

/-- `Client.PromoteRelease` (src/update/s3.go lines 477–545).  Returns the Go
result (release pointer and error, as `Flow (Option Release)`) together with
the list of mutating storage calls issued.  The `CurrentUpdate` fetch is the
collaborator's `getUpdate`; its error is only logged and leaves
`currentUpdate = nil`. -/
def promoteRelease (s : S3State) (sortImpl : List Release → List Release)
    (eh : Int → Nat) (bucketName : List Char) (now delay : Int)
    (beforeHourEastern : Int) (channel : List Char) (platform : Platform)
    (env : List Char) : Flow (Option Release) × List S3Action :=
  match findRelease s sortImpl eh platform
      (promotePred now delay beforeHourEastern) with
  | .crash msg => (.crash msg, [])
  | .fail e => (.fail e, [])
  | .ok none => (.ok none, [])
  | .ok (some release) =>
    let doCopy : Flow (Option Release) × List S3Action :=
      let jsonName := updateJSONName channel platform.name env
      let jsonURL := urlString bucketName platform.pfxSupport
        (supportManifestName platform.name env release.version)
      match s.copyErr jsonURL jsonName with
      | some e => (.fail e, [.copy jsonURL jsonName])
      | none => (.ok (some release), [.copy jsonURL jsonName])
    match s.getUpdate (updateJSONName channel platform.name env) with
    | .error _ => doCopy
    | .ok currentUpdate =>
      match semverMake currentUpdate.version with
      | .error e => (.fail e, [])
      | .ok currentVer =>
        match semverMake release.version with
        | .error e => (.fail e, [])
        | .ok releaseVer =>
          if svCompare releaseVer currentVer = 0 then (.ok none, [])
          else if svCompare releaseVer currentVer = -1 then (.ok none, [])
          else doCopy

/-- The per-file loop of `ReleaseBroken` (src/update/s3.go lines 670–691):
copy each associated file to `broken/<path>`; a copy failure is logged and the
loop continues with the next file (skipping the delete); a delete failure
returns immediately. -/
def brokenLoop (s : S3State) (bucketName : List Char) :
    List (List Char) → List S3Action → Option GoErr × List S3Action
  | [], acc => (none, acc)
  | path :: rest, acc =>
    let sourceURL := urlString bucketName [] path
    let brokenPath := cl "broken/" ++ path
    match s.copyErr sourceURL brokenPath with
    | some _ => brokenLoop s bucketName rest (acc ++ [.copy sourceURL brokenPath])
    | none =>
      match s.deleteErr path with
      | some e => (some e, acc ++ [.copy sourceURL brokenPath, .del path])
      | none =>
        brokenLoop s bucketName rest
          (acc ++ [.copy sourceURL brokenPath, .del path])

/-- `ReleaseBroken(releaseName, bucketName)` (src/update/s3.go lines
651–698).  The platform loop ranges over `[platformDarwin]` only; the release
is searched by exact version match.  Returns the Go error result together
with the mutating calls issued. -/
def releaseBroken (s : S3State) (sortImpl : List Release → List Release)
    (eh : Int → Nat) (releaseName bucketName : List Char) :
    Flow Unit × List S3Action :=
  match findRelease s sortImpl eh platformDarwin
      (fun r => releaseName == r.version) with
  | .crash msg => (.crash msg, [])
  | .fail e => (.fail e, [])
  | .ok none => (.fail "No release found", [])
  | .ok (some release) =>
    match brokenLoop s bucketName (platformFiles platformDarwin release) [] with
    | (some e, acts) => (.fail e, acts)
    | (none, acts) => (.ok (), acts)

/-! ## Models of `sort.Sort`

Go's `sort.Sort(ByRelease(releases))` guarantees only that the result is a
permutation of the input ordered by `Less`; it is documented as **not**
stable.  `SortSpec` is that contract.  Two executable realizations are given:
`sortD` (stable: ties keep input order) and `sortA` (anti-stable: ties are
reversed); both satisfy `SortSpec`. -/

/-- The (non-strict) descending date order induced by `ByRelease.Less`. -/
def DateGE (a b : Release) : Prop := b.date.sec ≤ a.date.sec

/-- The documented contract of `sort.Sort` for `ByRelease`: a permutation of
the input, sorted by descending date.  Stability is *not* part of the
contract. -/
def SortSpec (f : List Release → List Release) : Prop :=
  ∀ l : List Release, (f l).Perm l ∧ (f l).Pairwise DateGE

/-- Insertion step parameterised by the placement condition on ties. -/
def genInsert (cond : Release → Release → Bool) (x : Release) :
    List Release → List Release
  | [] => [x]
  | y :: ys => if cond y x then x :: y :: ys else y :: genInsert cond x ys

def genSort (cond : Release → Release → Bool) (l : List Release) :
    List Release :=
  l.foldl (fun acc x => genInsert cond x acc) []

/-- Stable descending insertion sort: a tie is placed after the elements
already present (input order preserved). -/
def sortD : List Release → List Release :=
  genSort (fun y x => y.date.sec < x.date.sec)

/-- Anti-stable descending insertion sort: a tie is placed before the
elements already present (input order reversed). -/
def sortA : List Release → List Release :=
  genSort (fun y x => y.date.sec ≤ x.date.sec)

theorem genInsert_perm (cond : Release → Release → Bool) (x : Release) :
    ∀ l : List Release, (genInsert cond x l).Perm (x :: l) := by
  intro l
  induction l with
  | nil => rfl
  | cons y ys ih =>
    unfold genInsert
    by_cases h : cond y x = true
    · rw [if_pos h]
    · rw [if_neg h]
      exact (List.Perm.cons y ih).trans (List.Perm.swap x y ys)

theorem genInsert_mem (cond : Release → Release → Bool) (x b : Release)
    (l : List Release) (hb : b ∈ genInsert cond x l) : b = x ∨ b ∈ l := by
  have := (genInsert_perm cond x l).mem_iff.1 hb
  simpa using this

theorem genInsert_sorted (cond : Release → Release → Bool)
    (hcond : ∀ y x, (cond y x = true → DateGE x y) ∧
      (cond y x = false → DateGE y x))
    (x : Release) (l : List Release) (hl : l.Pairwise DateGE) :
    (genInsert cond x l).Pairwise DateGE := by
  induction l with
  | nil => simp [genInsert]
  | cons y ys ih =>
    rcases List.pairwise_cons.1 hl with ⟨hy, hys⟩
    unfold genInsert
    by_cases h : cond y x = true
    · rw [if_pos h]
      refine List.pairwise_cons.2 ⟨?_, hl⟩
      intro b hb
      rcases List.mem_cons.1 hb with hby | hbys
      · rw [hby]
        exact (hcond y x).1 h
      · exact le_trans (hy b hbys) ((hcond y x).1 h)
    · rw [if_neg h]
      refine List.pairwise_cons.2 ⟨?_, ih hys⟩
      intro b hb
      rcases genInsert_mem cond x b ys hb with hbx | hbys
      · rw [hbx]
        exact (hcond y x).2 (by simpa using h)
      · exact hy b hbys

theorem genSort_perm (cond : Release → Release → Bool) :
    ∀ (l acc : List Release),
      (l.foldl (fun acc x => genInsert cond x acc) acc).Perm (l ++ acc) := by
  intro l
  induction l with
  | nil => intro acc; simp
  | cons x xs ih =>
    intro acc
    simp only [List.foldl_cons, List.cons_append]
    have h1 := ih (genInsert cond x acc)
    have h2 : (xs ++ genInsert cond x acc).Perm (xs ++ x :: acc) :=
      List.Perm.append_left xs (genInsert_perm cond x acc)
    exact (h1.trans h2).trans List.perm_middle

theorem genSort_sorted (cond : Release → Release → Bool)
    (hcond : ∀ y x, (cond y x = true → DateGE x y) ∧
      (cond y x = false → DateGE y x)) :
    ∀ (l acc : List Release), acc.Pairwise DateGE →
      (l.foldl (fun acc x => genInsert cond x acc) acc).Pairwise DateGE := by
  intro l
  induction l with
  | nil => intro acc h; simpa using h
  | cons x xs ih =>
    intro acc h
    simp only [List.foldl_cons]
    exact ih _ (genInsert_sorted cond hcond x acc h)

theorem sortD_spec : SortSpec sortD := by
  intro l
  constructor
  · have := genSort_perm (fun y x => y.date.sec < x.date.sec) l []
    simpa [sortD, genSort] using this
  · exact genSort_sorted _
      (fun y x => ⟨fun h => le_of_lt (by simpa [DateGE] using of_decide_eq_true h),
        fun h => by
          have := of_decide_eq_false h
          simpa [DateGE] using le_of_not_lt this⟩)
      l [] (by simp)

theorem sortA_spec : SortSpec sortA := by
  intro l
  constructor
  · have := genSort_perm (fun y x => y.date.sec ≤ x.date.sec) l []
    simpa [sortA, genSort] using this
  · exact genSort_sorted _
      (fun y x => ⟨fun h => by simpa [DateGE] using of_decide_eq_true h,
        fun h => by
          have := of_decide_eq_false h
          simpa [DateGE] using le_of_not_le this⟩)
      l [] (by simp)

/-! ## Claim C3: the scheduled-promotion predicate -/

/-- A release published at Eastern wall-clock hour 11 (instant arbitrary). -/
def hour11Release : Release :=
  ⟨cl "Keybase-1.2.0-20230101110000+abc1234.dmg",
   cl "darwin/Keybase-1.2.0-20230101110000+abc1234.dmg",
   cl "1.2.0", ⟨1672567200, 11⟩, cl "abc1234"⟩

/-- **C3.** The eligibility predicate of `PromoteRelease` accepts a release
iff (the delay is zero or `now - r.date ≥ delay`) and (the cutoff hour is
zero or the release's Eastern publish hour is strictly below the cutoff); in
particular an hour-11 release is rejected with cutoff 10 and accepted with
cutoff 12. -/
theorem claim_C3_delay_cutoff_predicate :
    (∀ (now delay beforeHourEastern : Int) (r : Release),
      promotePred now delay beforeHourEastern r = true ↔
        ((delay = 0 ∨ delay ≤ now - r.date.sec) ∧
         (beforeHourEastern = 0 ∨ (r.date.hour : Int) < beforeHourEastern))) ∧
    promotePred 1675000000 0 10 hour11Release = false ∧
    promotePred 1675000000 0 12 hour11Release = true := by
  refine ⟨?_, by decide, by decide⟩
  intro now delay beforeHourEastern r
  unfold promotePred
  split_ifs with h1 h2
  · constructor
    · intro h
      exact absurd h (by simp)
    · intro h
      rcases h1 with ⟨hne, hlt⟩
      rcases h.1 with h | h
      · exact absurd h hne
      · omega
  · constructor
    · intro h
      exact absurd h (by simp)
    · intro h
      rcases h2 with ⟨hne, hge⟩
      rcases h.2 with h | h
      · exact absurd h hne
      · omega
  · constructor
    · intro _
      constructor
      · by_cases hd : delay = 0
        · exact Or.inl hd
        · refine Or.inr ?_
          by_contra hlt
          exact h1 ⟨hd, by omega⟩
      · by_cases hh : beforeHourEastern = 0
        · exact Or.inl hh
        · refine Or.inr ?_
          by_contra hge
          exact h2 ⟨hh, by omega⟩
    · intro _
      rfl

/-! ## Claim C5: the Linux parse path crashes on a non-matching name -/

/-- **C5.** The claim states that a `.deb`/`.rpm` name not matching the Linux
regex makes `ParseLinux` return an error.  The code instead indexes the empty
match list and crashes: on `"keybase.deb"` (no digits, so the pattern cannot
match anywhere) `version.Parse` reaches the index-out-of-range runtime panic
rather than an error return.  (The sibling generation of this parser in the
repository, src/unnamed/part_002, performs exactly the missing length check
and returns an error, confirming the spec's intent.) -/
theorem claim_C5_parse_linux_crashes :
    linuxFirstMatch (cl "keybase.deb") = none ∧
    parse (cl "keybase.deb") =
      .error "runtime error: index out of range [0] with length 0" := by
  exact ⟨rfl, rfl⟩

/-! ## Claim C6: error conditions of the general parse path -/

/-- The spec's failure conditions for the extension-stripped,
prefix-stripped remainder `v` on the general path, as amended: the remainder
is not a valid semantic version, or it does not have exactly one pre-release
component, or the pre-release numeral is not a valid 14-digit timestamp. -/
def generalPathFails (v : List Char) : Prop :=
  (∃ e, semverMake v = .error e) ∨
  (∃ sv, semverMake v = .ok sv ∧
    (sv.pre.length ≠ 1 ∨ timeParse14 (natToDec (preNumOf sv)) = none))

/-- **C6 (counterexample).** The claim says a non-Linux name with no numeric
start fails with a `ParseError`.  On `"foo.zip"` the numeric-start search
fails and `version.Parse` returns zero values with a `nil` error (the Go
function returns before any error is assigned). -/
theorem claim_C6_counterexample :
    firstIdxP isDig19 (cl "foo.zip") = none ∧
    parse (cl "foo.zip") = .ok ⟨[], epochTime, [], none⟩ := by
  exact ⟨rfl, rfl⟩

/-- **C6 (amended).** On the general (non-Linux) path, `version.Parse` never
crashes and returns a non-nil error **iff** the name has a numeric start and
the stripped remainder fails one of: valid-semver, exactly one pre-release
component, valid 14-digit timestamp.  A name with no numeric start returns
blank results and a `nil` error. -/
theorem claim_C6_amended (name : List Char)
    (hdeb : hasSuffixCL name (cl ".deb") = false)
    (hrpm : hasSuffixCL name (cl ".rpm") = false) :
    parse name = .ok (parseGeneral name) ∧
    ((parseGeneral name).err.isSome = true ↔
      ∃ i, firstIdxP isDig19 name = some i ∧
        generalPathFails (removeExt (name.drop i))) := by
  constructor
  · simp [parse, hdeb, hrpm]
  · cases hidx : firstIdxP isDig19 name with
    | none =>
      rw [parseGeneral_eq_none name hidx]
      simp [hidx]
    | some i =>
      cases hmk : semverMake (removeExt (name.drop i)) with
      | error e =>
        rw [parseGeneral_semver_err name i e hidx hmk]
        simp only [Option.isSome_some, true_iff]
        exact ⟨i, rfl, Or.inl ⟨e, hmk⟩⟩
      | ok sv =>
        by_cases hlen : sv.pre.length = 1
        · cases ht : timeParse14 (natToDec (preNumOf sv)) with
          | none =>
            rw [parseGeneral_time_err name i sv hidx hmk hlen ht]
            simp only [Option.isSome_some, true_iff]
            exact ⟨i, rfl, Or.inr ⟨sv, hmk, Or.inr ht⟩⟩
          | some t =>
            rw [parseGeneral_ok_eq name i sv t hidx hmk hlen ht]
            simp only [Option.isSome_none, Bool.false_eq_true, false_iff]
            rintro ⟨i', hi', hfail⟩
            have hii : i' = i := by
              injection hi' with h
              omega
            subst hii
            rcases hfail with ⟨e, he⟩ | ⟨sv', hsv', hbad⟩
            · rw [hmk] at he
              exact absurd he (by simp)
            · rw [hmk] at hsv'
              have hsveq : sv' = sv := by
                injection hsv' with h
                exact h.symm
              subst hsveq
              rcases hbad with hbad | hbad
              · exact hbad (by omega)
              · rw [ht] at hbad
                exact absurd hbad (by simp)
        · rw [parseGeneral_pre_err name i sv hidx hmk hlen]
          simp only [Option.isSome_some, true_iff]
          exact ⟨i, rfl, Or.inr ⟨sv, hmk, Or.inl hlen⟩⟩

/-- Witness for C6 (amended) at the concrete name
`"Keybase-1.2.3.dmg"`: valid semver, no pre-release component, so the error
is non-nil and the failure condition holds. -/
theorem claim_C6_amended_witness :
    hasSuffixCL (cl "Keybase-1.2.3.dmg") (cl ".deb") = false ∧
    (parse (cl "Keybase-1.2.3.dmg") = .ok (parseGeneral (cl "Keybase-1.2.3.dmg")) ∧
    ((parseGeneral (cl "Keybase-1.2.3.dmg")).err.isSome = true ↔
      ∃ i, firstIdxP isDig19 (cl "Keybase-1.2.3.dmg") = some i ∧
        generalPathFails (removeExt ((cl "Keybase-1.2.3.dmg").drop i)))) :=
  ⟨by decide, claim_C6_amended (cl "Keybase-1.2.3.dmg") (by decide) (by decide)⟩

/-! ## Claim C7: the commit is kept only at length exactly 7 -/

/-- **C7.** On the general path, when the version parses (valid semver with a
single numeric pre-release component that is a valid 14-digit timestamp), a
build/commit component of joined length ≠ 7 yields an empty commit with no
error, and one of length exactly 7 is returned as the commit. -/
theorem claim_C7_commit_length (name : List Char) (i : Nat) (sv : SemVersion)
    (n : Nat) (T : GoTime)
    (hdeb : hasSuffixCL name (cl ".deb") = false)
    (hrpm : hasSuffixCL name (cl ".rpm") = false)
    (hidx : firstIdxP isDig19 name = some i)
    (hsv : semverMake (removeExt (name.drop i)) = .ok sv)
    (hpre : sv.pre = [PRVersion.num n])
    (ht : timeParse14 (natToDec n) = some T) :
    ((joinSpace sv.build).length ≠ 7 →
      parse name = .ok ⟨verList sv, T, [], none⟩) ∧
    ((joinSpace sv.build).length = 7 →
      parse name = .ok ⟨verList sv, T, joinSpace sv.build, none⟩) := by
  have hparse : parse name = .ok (parseGeneral name) := by
    simp [parse, hdeb, hrpm]
  have hlen : sv.pre.length = 1 := by
    rw [hpre]
    rfl
  have hnum : preNumOf sv = n := by
    unfold preNumOf
    rw [hpre]
  have hgen : parseGeneral name = ⟨verList sv, T, commitOf sv, none⟩ :=
    parseGeneral_ok_eq name i sv T hidx hsv hlen (by rw [hnum]; exact ht)
  constructor
  · intro h7
    have hco : commitOf sv = [] := by
      unfold commitOf
      rw [if_pos h7]
    rw [hparse, hgen, hco]
  · intro h7
    have hco : commitOf sv = joinSpace sv.build := by
      unfold commitOf
      rw [if_neg (by omega)]
    rw [hparse, hgen, hco]

/-- Witness for C7 at `"App-1.2.3-20230101120000+abcd1234.dmg"`: the
8-character build component is cleared, no error. -/
theorem claim_C7_commit_length_witness :
    (joinSpace ([cl "abcd1234"])).length ≠ 7 ∧
    parse (cl "App-1.2.3-20230101120000+abcd1234.dmg") =
      .ok ⟨verList ⟨1, 2, 3, [PRVersion.num 20230101120000], [cl "abcd1234"]⟩,
        ⟨1672574400, 12⟩, [], none⟩ :=
  ⟨by decide,
   (claim_C7_commit_length (cl "App-1.2.3-20230101120000+abcd1234.dmg") 4
    ⟨1, 2, 3, [PRVersion.num 20230101120000], [cl "abcd1234"]⟩
    20230101120000 ⟨1672574400, 12⟩
    (by decide) (by decide) (by decide) (by decide) (by decide) (by decide)).1
    (by decide)⟩

/-! ## Claim C10: parse failures are included, with partially-populated
fields -/

/-- **C10 (counterexample).** The claim says entries whose names fail version
parsing are included with *zeroed/blank* version and commit fields.  The entry
is indeed included, but `version.Parse`'s named returns keep whatever was
assigned before the failure: `"Keybase-1.2.3.dmg"` fails (no pre-release
component) yet its record carries version `"1.2.3"`, not a blank. -/
theorem claim_C10_counterexample :
    (parseGeneral (cl "Keybase-1.2.3.dmg")).err.isSome = true ∧
    loadReleases sortD (fun _ => 0) [cl "darwin/Keybase-1.2.3.dmg"]
        (cl "darwin/") [] 0 =
      .ok [⟨cl "Keybase-1.2.3.dmg", cl "darwin/Keybase-1.2.3.dmg",
        cl "1.2.3", ⟨0, 0⟩, []⟩] ∧
    cl "1.2.3" ≠ ([] : List Char) := by
  exact ⟨rfl, rfl, by decide⟩

theorem loadFiltered_mem (eh : Int → Nat) (objs : List (List Char))
    (pfx suffix k : List Char) (po : ParseOut)
    (hk : k ∈ objs) (hsuf : hasSuffixCL k suffix = true)
    (hni : k.drop pfx.length ≠ cl "index.html")
    (hp : parse (k.drop pfx.length) = .ok po) :
    ∀ rels, loadFiltered eh objs pfx suffix = .ok rels →
      (⟨k.drop pfx.length, k, po.version, convertEastern eh po.t,
        po.commit⟩ : Release) ∈ rels := by
  induction objs with
  | nil => simp at hk
  | cons x xs ih =>
    intro rels hrels
    unfold loadFiltered at hrels
    by_cases h1 : hasSuffixCL x suffix = true
    · rw [if_pos h1] at hrels
      by_cases h2 : x.drop pfx.length = cl "index.html"
      · rw [if_pos h2] at hrels
        rcases List.mem_cons.1 hk with hkx | hkxs
        · exact absurd (hkx ▸ h2) hni
        · exact ih hkxs rels hrels
      · rw [if_neg h2] at hrels
        cases hx : parse (x.drop pfx.length) with
        | error msg =>
          rw [hx] at hrels
          exact absurd hrels (by simp)
        | ok po' =>
          rw [hx] at hrels
          cases hrest : loadFiltered eh xs pfx suffix with
          | error msg =>
            rw [hrest] at hrels
            exact absurd hrels (by simp)
          | ok rest =>
            rw [hrest] at hrels
            have hr : rels = ⟨(x.drop pfx.length), x, po'.version,
                convertEastern eh po'.t, po'.commit⟩ :: rest := by
              injection hrels with h
              exact h.symm
            subst hr
            rcases List.mem_cons.1 hk with hkx | hkxs
            · subst hkx
              rw [hx] at hp
              have hpo : po' = po := by
                injection hp with h
              rw [hpo]
              exact List.mem_cons_self _ _
            · exact List.mem_cons_of_mem _ (ih hkxs rest hrest)
    · rw [if_neg h1] at hrels
      rcases List.mem_cons.1 hk with hkx | hkxs
      · exact absurd (hkx ▸ hsuf) h1
      · exact ih hkxs rels hrels

/-- **C10 (amended).** Every listed artifact passing the suffix and
`index.html` filters is included in the (untruncated) catalog — parse failures
are not dropped — and its record carries exactly the values `version.Parse`
returned, which are blank only when the failure occurred before they were
assigned. -/
theorem claim_C10_amended (sortImpl : List Release → List Release)
    (hs : SortSpec sortImpl) (eh : Int → Nat) (objs : List (List Char))
    (pfx suffix k : List Char) (po : ParseOut) (out : List Release)
    (hk : k ∈ objs) (hsuf : hasSuffixCL k suffix = true)
    (hni : k.drop pfx.length ≠ cl "index.html")
    (hp : parse (k.drop pfx.length) = .ok po)
    (hout : loadReleases sortImpl eh objs pfx suffix 0 = .ok out) :
    (⟨k.drop pfx.length, k, po.version, convertEastern eh po.t,
      po.commit⟩ : Release) ∈ out := by
  unfold loadReleases at hout
  cases hf : loadFiltered eh objs pfx suffix with
  | error msg =>
    rw [hf] at hout
    exact absurd hout (by simp)
  | ok rels =>
    rw [hf] at hout
    have hmem := loadFiltered_mem eh objs pfx suffix k po hk hsuf hni hp rels hf
    have hout' : out = sortImpl rels := by
      have hred : ((Except.ok
          (if (0 : Int) < 0 ∧ (0 : Int) < ((sortImpl rels).length : Int) then
            (sortImpl rels).take (Int.toNat 0)
          else sortImpl rels)) : Except GoCrash (List Release)) =
          Except.ok out := hout
      rw [if_neg (by omega)] at hred
      injection hred with h
      exact h.symm
    rw [hout']
    exact ((hs rels).1.mem_iff).2 hmem

/-- Witness for C10 (amended): the failing artifact
`"darwin/Keybase-1.2.3.dmg"` is a member of the loaded catalog. -/
theorem claim_C10_amended_witness :
    (⟨cl "Keybase-1.2.3.dmg", cl "darwin/Keybase-1.2.3.dmg", cl "1.2.3",
      ⟨0, 0⟩, []⟩ : Release) ∈
      [(⟨cl "Keybase-1.2.3.dmg", cl "darwin/Keybase-1.2.3.dmg", cl "1.2.3",
        ⟨0, 0⟩, []⟩ : Release)] := by
  have h := claim_C10_amended sortD sortD_spec (fun _ => 0)
    [cl "darwin/Keybase-1.2.3.dmg"] (cl "darwin/") []
    (cl "darwin/Keybase-1.2.3.dmg")
    ⟨cl "1.2.3", epochTime, [], some "Invalid prerelease"⟩
    [⟨cl "Keybase-1.2.3.dmg", cl "darwin/Keybase-1.2.3.dmg", cl "1.2.3",
      ⟨0, 0⟩, []⟩]
    (by decide) (by decide) (by decide) (by decide) rfl
  exact h

/-! ## Claim C4: `ReleaseBroken` and per-file failures -/

/-- Storage for the C4 scenario: one darwin release with version `1.2.0`
(three associated files), the copy of the second file fails, deletes
succeed. -/
def s3StateC4 : S3State where
  list := fun p =>
    if p = cl "darwin/" then
      .ok [cl "darwin/Keybase-1.2.0-20230101120000+abc1234.dmg"]
    else .ok []
  getUpdate := fun _ => .error "NoSuchKey"
  copyErr := fun _ dst =>
    if dst = cl "broken/darwin-updates/Keybase-1.2.0.zip" then
      some "copy failed"
    else none
  deleteErr := fun _ => none

/-- **C4 (counterexample).** The claim says `ReleaseBroken` returns an
aggregate combined error naming every per-file failure.  In the 3-file darwin
scenario with one failing copy, the code logs the failure, skips that file's
delete, continues — and returns **no error at all** (`CombineErrors` exists in
src/update/util.go but `ReleaseBroken` never uses it). -/
theorem claim_C4_counterexample :
    s3StateC4.copyErr
        (urlString (cl "bucket") [] (cl "darwin-updates/Keybase-1.2.0.zip"))
        (cl "broken/darwin-updates/Keybase-1.2.0.zip") = some "copy failed" ∧
    releaseBroken s3StateC4 sortD (fun _ => 0) (cl "1.2.0") (cl "bucket") =
      (.ok (),
       [.copy (urlString (cl "bucket") [] (cl "darwin/Keybase-1.2.0.dmg"))
          (cl "broken/darwin/Keybase-1.2.0.dmg"),
        .del (cl "darwin/Keybase-1.2.0.dmg"),
        .copy (urlString (cl "bucket") [] (cl "darwin-updates/Keybase-1.2.0.zip"))
          (cl "broken/darwin-updates/Keybase-1.2.0.zip"),
        .copy (urlString (cl "bucket") []
            (cl "darwin-support/update-darwin-prod-1.2.0.json"))
          (cl "broken/darwin-support/update-darwin-prod-1.2.0.json"),
        .del (cl "darwin-support/update-darwin-prod-1.2.0.json")]) := by
  exact ⟨rfl, rfl⟩

theorem brokenLoop_deletes_ok (s : S3State) (bn : List Char)
    (hdel : ∀ k, s.deleteErr k = none) :
    ∀ (files : List (List Char)) (acc : List S3Action),
      brokenLoop s bn files acc =
        (none, acc ++ files.flatMap (fun path =>
          S3Action.copy (urlString bn [] path) (cl "broken/" ++ path) ::
            (if (s.copyErr (urlString bn [] path) (cl "broken/" ++ path)).isSome
             then [] else [S3Action.del path]))) := by
  intro files
  induction files with
  | nil =>
    intro acc
    simp [brokenLoop]
  | cons p ps ih =>
    intro acc
    unfold brokenLoop
    cases hc : s.copyErr (urlString bn [] p) (cl "broken/" ++ p) with
    | some e =>
      simp only [hc, ih, List.flatMap_cons, Option.isSome_some, if_true,
        List.append_assoc, List.cons_append, List.nil_append]
    | none =>
      simp only [hc, hdel p, ih, List.flatMap_cons, Option.isSome_none,
        Bool.false_eq_true, if_false, List.append_assoc, List.cons_append,
        List.singleton_append, List.nil_append]

/-- **C4 (amended).** When a release is found, `ReleaseBroken` attempts the
copy of every associated file, continues past per-file copy failures, deletes
exactly the files whose copy succeeded, and (with deletes succeeding) returns
**no** error: copy failures are logged only, never aggregated into the
returned error.  (A failing delete, by contrast, aborts immediately with that
single error.) -/
theorem claim_C4_amended (s : S3State) (sortImpl : List Release → List Release)
    (eh : Int → Nat) (releaseName bucketName : List Char) (r : Release)
    (hfind : findRelease s sortImpl eh platformDarwin
      (fun q => releaseName == q.version) = .ok (some r))
    (hdel : ∀ k, s.deleteErr k = none) :
    releaseBroken s sortImpl eh releaseName bucketName =
      (.ok (), (platformFiles platformDarwin r).flatMap (fun path =>
        S3Action.copy (urlString bucketName [] path) (cl "broken/" ++ path) ::
          (if (s.copyErr (urlString bucketName [] path)
              (cl "broken/" ++ path)).isSome
           then [] else [S3Action.del path]))) := by
  unfold releaseBroken
  rw [hfind]
  simp only [brokenLoop_deletes_ok s bucketName hdel, List.nil_append]

/-- Witness for C4 (amended) in the concrete 3-file scenario (second copy
fails): all three copies attempted, two deletes, no error returned. -/
theorem claim_C4_amended_witness :
    releaseBroken s3StateC4 sortD (fun _ => 0) (cl "1.2.0") (cl "bucket") =
      (.ok (), (platformFiles platformDarwin
          ⟨cl "Keybase-1.2.0-20230101120000+abc1234.dmg",
           cl "darwin/Keybase-1.2.0-20230101120000+abc1234.dmg",
           cl "1.2.0", ⟨1672574400, 0⟩, cl "abc1234"⟩).flatMap (fun path =>
        S3Action.copy (urlString (cl "bucket") [] path) (cl "broken/" ++ path) ::
          (if (s3StateC4.copyErr (urlString (cl "bucket") [] path)
              (cl "broken/" ++ path)).isSome
           then [] else [S3Action.del path]))) := by
  exact claim_C4_amended s3StateC4 sortD (fun _ => 0) (cl "1.2.0") (cl "bucket")
    ⟨cl "Keybase-1.2.0-20230101120000+abc1234.dmg",
     cl "darwin/Keybase-1.2.0-20230101120000+abc1234.dmg",
     cl "1.2.0", ⟨1672574400, 0⟩, cl "abc1234"⟩
    (by decide) (fun _ => rfl)

/-! ## Claim C1: the engine never demotes -/

/-- **C1.** When a candidate is found and the current manifest exists and
decodes, a candidate whose semantic version compares equal to or below the
current one makes `PromoteRelease` issue **no** storage write and return
no release and no error. -/
theorem claim_C1_never_demotes (s : S3State)
    (sortImpl : List Release → List Release) (eh : Int → Nat)
    (bucketName : List Char) (now delay beforeHourEastern : Int)
    (channel : List Char) (platform : Platform) (env : List Char)
    (r : Release) (u : Update) (cv rv : SemVersion)
    (hfind : findRelease s sortImpl eh platform
      (promotePred now delay beforeHourEastern) = .ok (some r))
    (hcur : s.getUpdate (updateJSONName channel platform.name env) = .ok u)
    (hcv : semverMake u.version = .ok cv)
    (hrv : semverMake r.version = .ok rv)
    (hle : svCompare rv cv = 0 ∨ svCompare rv cv = -1) :
    promoteRelease s sortImpl eh bucketName now delay beforeHourEastern
      channel platform env = (.ok none, []) := by
  unfold promoteRelease
  rw [hfind]
  simp only [hcur, hcv, hrv]
  rcases hle with h | h
  · rw [if_pos h]
  · rw [if_neg (by omega), if_pos h]

/-- Storage for the C1 witness: one darwin release of version `1.2.0`, the
current public manifest also at `1.2.0`. -/
def s3StateC1 : S3State where
  list := fun p =>
    if p = cl "darwin/" then
      .ok [cl "darwin/Keybase-1.2.0-20230101120000+abc1234.dmg"]
    else .ok []
  getUpdate := fun p =>
    if p = cl "update-darwin-prod.json" then .ok ⟨cl "1.2.0"⟩
    else .error "NoSuchKey"
  copyErr := fun _ _ => none
  deleteErr := fun _ => none

/-- Witness for C1: with current version equal to the candidate, the concrete
promotion run issues no write and returns no release, no error. -/
theorem claim_C1_never_demotes_witness :
    promoteRelease s3StateC1 sortD (fun _ => 0) (cl "bucket") 1675000000 0 0
      [] platformDarwin (cl "prod") = (.ok none, []) :=
  claim_C1_never_demotes s3StateC1 sortD (fun _ => 0) (cl "bucket")
    1675000000 0 0 [] platformDarwin (cl "prod")
    ⟨cl "Keybase-1.2.0-20230101120000+abc1234.dmg",
     cl "darwin/Keybase-1.2.0-20230101120000+abc1234.dmg",
     cl "1.2.0", ⟨1672574400, 0⟩, cl "abc1234"⟩
    ⟨cl "1.2.0"⟩ ⟨1, 2, 0, [], []⟩ ⟨1, 2, 0, [], []⟩
    (by decide) (by decide) (by decide) (by decide) (Or.inl (by decide))

/-! ## Claim C2: missing/undecodable manifest means first-ever publish -/

/-- **C2.** When a candidate is found but fetching or decoding the current
manifest fails, the comparison is skipped and exactly one write is issued:
the copy of the support-file manifest for the candidate's version to the
destination manifest key; when that copy succeeds, the candidate is returned
as promoted. -/
theorem claim_C2_first_publish (s : S3State)
    (sortImpl : List Release → List Release) (eh : Int → Nat)
    (bucketName : List Char) (now delay beforeHourEastern : Int)
    (channel : List Char) (platform : Platform) (env : List Char)
    (r : Release) (e : GoErr)
    (hfind : findRelease s sortImpl eh platform
      (promotePred now delay beforeHourEastern) = .ok (some r))
    (hcur : s.getUpdate (updateJSONName channel platform.name env) = .error e) :
    (promoteRelease s sortImpl eh bucketName now delay beforeHourEastern
        channel platform env).2 =
      [.copy (urlString bucketName platform.pfxSupport
          (supportManifestName platform.name env r.version))
        (updateJSONName channel platform.name env)] ∧
    (s.copyErr (urlString bucketName platform.pfxSupport
          (supportManifestName platform.name env r.version))
        (updateJSONName channel platform.name env) = none →
      (promoteRelease s sortImpl eh bucketName now delay beforeHourEastern
        channel platform env).1 = .ok (some r)) := by
  unfold promoteRelease
  rw [hfind]
  simp only [hcur]
  cases hcp : s.copyErr (urlString bucketName platform.pfxSupport
      (supportManifestName platform.name env r.version))
      (updateJSONName channel platform.name env) with
  | some e' => simp [hcp]
  | none => simp [hcp]

/-- Storage for the C2 witness: one darwin release, no current manifest. -/
def s3StateC2 : S3State where
  list := fun p =>
    if p = cl "darwin/" then
      .ok [cl "darwin/Keybase-1.2.0-20230101120000+abc1234.dmg"]
    else .ok []
  getUpdate := fun _ => .error "NoSuchKey"
  copyErr := fun _ _ => none
  deleteErr := fun _ => none

/-- Witness for C2: the concrete first-publish run issues exactly the single
support-manifest copy and returns the candidate. -/
theorem claim_C2_first_publish_witness :
    (promoteRelease s3StateC2 sortD (fun _ => 0) (cl "bucket") 1675000000 0 0
        [] platformDarwin (cl "prod")).2 =
      [.copy (urlString (cl "bucket") platformDarwin.pfxSupport
          (supportManifestName platformDarwin.name (cl "prod") (cl "1.2.0")))
        (updateJSONName [] platformDarwin.name (cl "prod"))] ∧
    (s3StateC2.copyErr (urlString (cl "bucket") platformDarwin.pfxSupport
          (supportManifestName platformDarwin.name (cl "prod") (cl "1.2.0")))
        (updateJSONName [] platformDarwin.name (cl "prod")) = none →
      (promoteRelease s3StateC2 sortD (fun _ => 0) (cl "bucket") 1675000000 0 0
        [] platformDarwin (cl "prod")).1 =
        .ok (some ⟨cl "Keybase-1.2.0-20230101120000+abc1234.dmg",
          cl "darwin/Keybase-1.2.0-20230101120000+abc1234.dmg",
          cl "1.2.0", ⟨1672574400, 0⟩, cl "abc1234"⟩)) :=
  claim_C2_first_publish s3StateC2 sortD (fun _ => 0) (cl "bucket")
    1675000000 0 0 [] platformDarwin (cl "prod")
    ⟨cl "Keybase-1.2.0-20230101120000+abc1234.dmg",
     cl "darwin/Keybase-1.2.0-20230101120000+abc1234.dmg",
     cl "1.2.0", ⟨1672574400, 0⟩, cl "abc1234"⟩
    "NoSuchKey" (by decide) (by decide)

/-! ## Claim C9: catalog order and truncation -/

/-- Listing with two releases carrying the same embedded timestamp (a date
tie). -/
def objsC9 : List (List Char) :=
  [cl "darwin/Keybase-1.2.0-20230101120000+abc1234.dmg",
   cl "darwin/Keybase-1.2.1-20230101120000+def5678.dmg"]

def relC9a : Release :=
  ⟨cl "Keybase-1.2.0-20230101120000+abc1234.dmg",
   cl "darwin/Keybase-1.2.0-20230101120000+abc1234.dmg",
   cl "1.2.0", ⟨1672574400, 0⟩, cl "abc1234"⟩

def relC9b : Release :=
  ⟨cl "Keybase-1.2.1-20230101120000+def5678.dmg",
   cl "darwin/Keybase-1.2.1-20230101120000+def5678.dmg",
   cl "1.2.1", ⟨1672574400, 0⟩, cl "def5678"⟩

/-- **C9 (counterexample).** The claim asserts ties are broken by input order
(a stable sort).  `loadReleases` sorts with Go's `sort.Sort`, whose contract
(`SortSpec`) does not guarantee stability — Go documents `sort.Sort` as not
stable, and since Go 1.19 it is an (unstable) pattern-defeating quicksort.
`sortA` satisfies the contract, yet on a two-element date tie it returns the
releases in reversed input order. -/
theorem claim_C9_counterexample :
    SortSpec sortA ∧
    loadFiltered (fun _ => 0) objsC9 (cl "darwin/") [] = .ok [relC9a, relC9b] ∧
    relC9a.date.sec = relC9b.date.sec ∧
    loadReleases sortA (fun _ => 0) objsC9 (cl "darwin/") [] 0 =
      .ok [relC9b, relC9a] ∧
    [relC9b, relC9a] ≠ [relC9a, relC9b] := by
  exact ⟨sortA_spec, rfl, rfl, rfl, by decide⟩

/-- **C9 (amended).** For every sort implementation satisfying `sort.Sort`'s
contract, the catalog is returned in (non-strict) timestamp-descending order
— the tie order is unspecified — and a positive truncation limit `n` keeps
exactly `min n totalMatches` entries, all of them at least as recent as every
dropped entry. -/
theorem claim_C9_amended (sortImpl : List Release → List Release)
    (hs : SortSpec sortImpl) (eh : Int → Nat) (objs : List (List Char))
    (pfx suffix : List Char) (n : Int) (rels out : List Release)
    (hf : loadFiltered eh objs pfx suffix = .ok rels)
    (hout : loadReleases sortImpl eh objs pfx suffix n = .ok out) :
    out.Pairwise DateGE ∧
    (0 < n → out.length = min n.toNat rels.length) ∧
    ∃ dropped, (out ++ dropped).Perm rels ∧
      ∀ a ∈ out, ∀ b ∈ dropped, b.date.sec ≤ a.date.sec := by
  have hperm := (hs rels).1
  have hsorted := (hs rels).2
  have hlen : (sortImpl rels).length = rels.length := hperm.length_eq
  unfold loadReleases at hout
  rw [hf] at hout
  have hout2 : (if 0 < n ∧ n < ((sortImpl rels).length : Int) then
      (sortImpl rels).take n.toNat else sortImpl rels) = out := by
    have hred : ((Except.ok (if 0 < n ∧ n < ((sortImpl rels).length : Int) then
        (sortImpl rels).take n.toNat else sortImpl rels)) :
        Except GoCrash (List Release)) = Except.ok out := hout
    injection hred with h
  by_cases hcond : 0 < n ∧ n < ((sortImpl rels).length : Int)
  · rw [if_pos hcond] at hout2
    subst hout2
    refine ⟨?_, ?_, (sortImpl rels).drop n.toNat, ?_, ?_⟩
    · exact hsorted.sublist (List.take_sublist _ _)
    · intro _
      rw [List.length_take, hlen]
    · rw [List.take_append_drop]
      exact hperm
    · intro a ha b hb
      have hsplit := hsorted
      rw [← List.take_append_drop n.toNat (sortImpl rels)] at hsplit
      exact (List.pairwise_append.1 hsplit).2.2 a ha b hb
  · rw [if_neg hcond] at hout2
    subst hout2
    refine ⟨hsorted, ?_, [], by simpa using hperm, by simp⟩
    intro hn
    have hge : ((sortImpl rels).length : Int) ≤ n := by
      rcases not_and_or.1 hcond with h | h
      · exact absurd hn h
      · omega
    rw [hlen] at hge
    rw [hlen]
    omega

/-- Witness for C9 (amended): the two-element tied listing under the stable
realization `sortD` with limit 1. -/
theorem claim_C9_amended_witness :
    ([relC9a] : List Release).Pairwise DateGE ∧
    ((0 : Int) < 1 → ([relC9a] : List Release).length =
      min (Int.toNat 1) ([relC9a, relC9b] : List Release).length) ∧
    ∃ dropped, (([relC9a] : List Release) ++ dropped).Perm [relC9a, relC9b] ∧
      ∀ a ∈ ([relC9a] : List Release), ∀ b ∈ dropped,
        b.date.sec ≤ a.date.sec :=
  claim_C9_amended sortD sortD_spec (fun _ => 0) objsC9 (cl "darwin/") [] 1
    [relC9a, relC9b] [relC9a] rfl rfl

/-! ## Claim C8: round trip of the generic filename convention

`renderGeneric` renders a filename in the spec's generic convention
`<name>-<major>.<minor>.<patch>-<14-digit-timestamp>+<commit>.<ext>` (the
convention itself is external to this repository: build scripts produce the
names; the definition follows the spec's description of the convention). -/

/-- A calendar field rendered as two digits (zero-padded). -/
def pad2 (n : Nat) : List Char :=
  if n < 10 then '0' :: natToDec n else natToDec n

/-- The 14-digit `YYYYMMDDhhmmss` timestamp string of a civil datetime with a
four-digit year. -/
def ts14 (y mo d h mi s : Nat) : List Char :=
  natToDec y ++ (pad2 mo ++ (pad2 d ++ (pad2 h ++ (pad2 mi ++ pad2 s))))

/-- The generic filename convention of the spec. -/
def renderGeneric (nm : List Char) (maj minr pat y mo d h mi s : Nat)
    (com ext : List Char) : List Char :=
  nm ++ '-' :: (natToDec maj ++ '.' :: (natToDec minr ++ '.' ::
    (natToDec pat ++ '-' :: (ts14 y mo d h mi s ++ '+' ::
      (com ++ '.' :: ext)))))

/-! ### Character facts -/

theorem isDig19_of_isDig (c : Char) (h : isDig c = true) (h1 : 1 ≤ dval c) :
    isDig19 c = true := by
  simp only [isDig, Bool.and_eq_true, decide_eq_true_eq] at h
  simp only [isDig19, Bool.and_eq_true, decide_eq_true_eq]
  unfold dval at h1
  omega

theorem isDig19_false_of_isDig_false (c : Char) (h : isDig c = false) :
    isDig19 c = false := by
  cases h19 : isDig19 c
  · rfl
  · exfalso
    simp only [isDig19, Bool.and_eq_true, decide_eq_true_eq] at h19
    have hdig : isDig c = true := by
      simp only [isDig, Bool.and_eq_true, decide_eq_true_eq]
      omega
    rw [hdig] at h
    exact absurd h (by simp)

theorem digit_ne_special (c : Char) (h : isDig c = true) :
    c ≠ '.' ∧ c ≠ '+' ∧ c ≠ '-' ∧ c ≠ '/' := by
  simp only [isDig, Bool.and_eq_true, decide_eq_true_eq] at h
  refine ⟨?_, ?_, ?_, ?_⟩ <;> intro hc <;> subst hc <;>
    exact absurd h (by decide)

theorem digit_ne_zero_char (c : Char) (h : isDig c = true) (h1 : 1 ≤ dval c) :
    c ≠ '0' := by
  intro hc
  subst hc
  simp [dval] at h1

theorem isPosixAlnum_ne_dot (c : Char) (h : isPosixAlnum c = true) :
    c ≠ '.' := by
  intro hc
  subst hc
  simp [isPosixAlnum, isAsciiLetter, isDig] at h

theorem isSemverAlnum_of_posix (c : Char) (h : isPosixAlnum c = true) :
    isSemverAlnum c = true := by
  simp only [isPosixAlnum, Bool.or_eq_true] at h
  simp only [isSemverAlnum, Bool.or_eq_true]
  tauto

theorem decToNat_lt (ds : List Char) (hds : ∀ c ∈ ds, isDig c = true) :
    decToNat ds < 10 ^ ds.length := by
  induction ds using List.reverseRecOn with
  | nil => simp [decToNat]
  | append_singleton init b ih =>
    rw [decToNat_append]
    have hb : isDig b = true := hds b (by simp)
    have hbv : dval b < 10 := by
      simp only [isDig, Bool.and_eq_true, decide_eq_true_eq] at hb
      unfold dval
      omega
    have h1 : decToNat [b] = dval b := by simp [decToNat]
    rw [h1]
    have h2 := ih (fun c hc => hds c (by simp [hc]))
    simp only [List.length_append, List.length_cons, List.length_nil,
      pow_one, Nat.zero_add]
    have h3 : 10 ^ (init.length + 1) = 10 ^ init.length * 10 := by ring
    rw [h3]
    omega

/-! ### pad2 / ts14 facts -/

theorem natToDec_lt_ten (n : Nat) (h : n < 10) : natToDec n = [digitChar n] := by
  rw [natToDec_unfold, if_pos h]

theorem pad2_digits (n : Nat) : ∀ c ∈ pad2 n, isDig c = true := by
  unfold pad2
  by_cases h : n < 10
  · rw [if_pos h]
    intro c hc
    rcases List.mem_cons.1 hc with hc0 | hc1
    · rw [hc0]; rfl
    · exact natToDec_digits n c hc1
  · rw [if_neg h]
    exact natToDec_digits n

theorem pad2_length (n : Nat) (h : n ≤ 99) : (pad2 n).length = 2 := by
  unfold pad2
  by_cases h10 : n < 10
  · rw [if_pos h10, natToDec_lt_ten n h10]
    rfl
  · rw [if_neg h10]
    exact natToDec_length 1 n (by omega) (by omega)

theorem decToNat_pad2 (n : Nat) : decToNat (pad2 n) = n := by
  unfold pad2
  by_cases h10 : n < 10
  · rw [if_pos h10]
    have hsplit : ('0' :: natToDec n) = ['0'] ++ natToDec n := rfl
    rw [hsplit, decToNat_append]
    have h0 : decToNat ['0'] = 0 := by simp [decToNat, dval]
    rw [h0, decToNat_natToDec]
    simp
  · rw [if_neg h10, decToNat_natToDec]

theorem ts14_digits (y mo d h mi s : Nat) :
    ∀ c ∈ ts14 y mo d h mi s, isDig c = true := by
  unfold ts14
  intro c hc
  simp only [List.mem_append] at hc
  rcases hc with hc | hc | hc | hc | hc | hc
  · exact natToDec_digits y c hc
  all_goals exact pad2_digits _ c hc

theorem ts14_length (y mo d h mi s : Nat) (hy1 : 1000 ≤ y) (hy2 : y ≤ 9999)
    (hmo : mo ≤ 99) (hd : d ≤ 99) (hh : h ≤ 99) (hmi : mi ≤ 99)
    (hs : s ≤ 99) : (ts14 y mo d h mi s).length = 14 := by
  unfold ts14
  simp only [List.length_append]
  rw [natToDec_length 3 y (by norm_num; omega) (by norm_num; omega),
    pad2_length mo hmo,
    pad2_length d hd, pad2_length h hh, pad2_length mi hmi, pad2_length s hs]

theorem ts14_head (y mo d h mi s : Nat) (hy1 : 1000 ≤ y) :
    ∀ c cs, ts14 y mo d h mi s = c :: cs → 1 ≤ dval c := by
  intro c cs heq
  unfold ts14 at heq
  rcases hy : natToDec y with _ | ⟨c', cs'⟩
  · exact absurd hy (natToDec_ne_nil y)
  · rw [hy] at heq
    simp only [List.cons_append, List.cons.injEq] at heq
    rw [← heq.1]
    exact natToDec_head_ne_zero y (by omega) c' cs' hy

theorem natToDec_decToNat_ts14 (y mo d h mi s : Nat) (hy1 : 1000 ≤ y) :
    natToDec (decToNat (ts14 y mo d h mi s)) = ts14 y mo d h mi s := by
  apply natToDec_decToNat
  · exact ts14_digits y mo d h mi s
  · intro hnil
    unfold ts14 at hnil
    rcases hy : natToDec y with _ | ⟨c, cs⟩
    · exact absurd hy (natToDec_ne_nil y)
    · rw [hy] at hnil
      exact absurd hnil (by simp)
  · exact ts14_head y mo d h mi s hy1

theorem daysInMonth_le (y mo : Nat) : daysInMonth y mo ≤ 31 := by
  unfold daysInMonth
  split <;> try omega
  split <;> omega

/-- `time.Parse` recovers the civil datetime from its `ts14` rendering. -/
theorem timeParse14_ts14 (y mo d h mi s : Nat)
    (hy1 : 1000 ≤ y) (hy2 : y ≤ 9999) (hmo1 : 1 ≤ mo) (hmo2 : mo ≤ 12)
    (hd1 : 1 ≤ d) (hd2 : d ≤ daysInMonth y mo) (hh : h ≤ 23) (hmi : mi ≤ 59)
    (hs : s ≤ 59) :
    timeParse14 (ts14 y mo d h mi s) = some (mkUTC y mo d h mi s) := by
  have hylen : (natToDec y).length = 4 :=
    natToDec_length 3 y (by norm_num; omega) (by norm_num; omega)
  have ht4 : (ts14 y mo d h mi s).take 4 = natToDec y := by
    unfold ts14
    rw [← hylen]
    exact List.take_left _ _
  have hdrop4 : (ts14 y mo d h mi s).drop 4 =
      pad2 mo ++ (pad2 d ++ (pad2 h ++ (pad2 mi ++ pad2 s))) := by
    unfold ts14
    rw [← hylen]
    exact List.drop_left _ _
  have h2mo : (pad2 mo).length = 2 := pad2_length mo (by omega)
  have h2d : (pad2 d).length = 2 := pad2_length d (by
    have := daysInMonth_le y mo
    omega)
  have h2h : (pad2 h).length = 2 := pad2_length h (by omega)
  have h2mi : (pad2 mi).length = 2 := pad2_length mi (by omega)
  have htake4 : ((ts14 y mo d h mi s).drop 4).take 2 = pad2 mo := by
    rw [hdrop4, ← h2mo]
    exact List.take_left _ _
  have hdrop6 : (ts14 y mo d h mi s).drop 6 =
      pad2 d ++ (pad2 h ++ (pad2 mi ++ pad2 s)) := by
    have h6 : (6 : Nat) = 4 + 2 := by norm_num
    rw [h6, ← List.drop_drop, hdrop4, ← h2mo]
    exact List.drop_left _ _
  have htake6 : ((ts14 y mo d h mi s).drop 6).take 2 = pad2 d := by
    rw [hdrop6, ← h2d]
    exact List.take_left _ _
  have hdrop8 : (ts14 y mo d h mi s).drop 8 =
      pad2 h ++ (pad2 mi ++ pad2 s) := by
    have h8 : (8 : Nat) = 6 + 2 := by norm_num
    rw [h8, ← List.drop_drop, hdrop6, ← h2d]
    exact List.drop_left _ _
  have htake8 : ((ts14 y mo d h mi s).drop 8).take 2 = pad2 h := by
    rw [hdrop8, ← h2h]
    exact List.take_left _ _
  have hdrop10 : (ts14 y mo d h mi s).drop 10 = pad2 mi ++ pad2 s := by
    have h10 : (10 : Nat) = 8 + 2 := by norm_num
    rw [h10, ← List.drop_drop, hdrop8, ← h2h]
    exact List.drop_left _ _
  have htake10 : ((ts14 y mo d h mi s).drop 10).take 2 = pad2 mi := by
    rw [hdrop10, ← h2mi]
    exact List.take_left _ _
  have hdrop12 : (ts14 y mo d h mi s).drop 12 = pad2 s := by
    have h12 : (12 : Nat) = 10 + 2 := by norm_num
    rw [h12, ← List.drop_drop, hdrop10, ← h2mi]
    exact List.drop_left _ _
  have htake12 : ((ts14 y mo d h mi s).drop 12).take 2 = pad2 s := by
    rw [hdrop12]
    exact List.take_of_length_le (by simp [pad2_length s (by omega)])
  have hcond : (ts14 y mo d h mi s).length = 14 ∧
      (ts14 y mo d h mi s).all isDig = true := by
    refine ⟨?_, ?_⟩
    · exact ts14_length y mo d h mi s hy1 hy2 (by omega)
        (by have := daysInMonth_le y mo; omega) (by omega) (by omega) (by omega)
    · rw [List.all_eq_true]
      exact ts14_digits y mo d h mi s
  unfold timeParse14
  rw [if_pos hcond]
  simp only [ht4, htake4, htake6, htake8, htake10, htake12, decToNat_pad2,
    decToNat_natToDec]
  rw [if_pos ⟨hmo1, hmo2, hd1, hd2, hh, hmi, hs⟩]

/-! ### Component evaluation lemmas for `semverMake` on a rendered name -/

/-- `parseNumComponent` recovers any 64-bit value from its decimal
rendering. -/
theorem parseNumComponent_natToDec (n : Nat) (h64 : n < 2 ^ 64) :
    parseNumComponent (natToDec n) = .ok n := by
  unfold parseNumComponent
  have hco : containsOnly (natToDec n) isDig = true := by
    unfold containsOnly
    rw [List.all_eq_true]
    exact natToDec_digits n
  rw [if_neg (by rw [hco]; simp)]
  have hlz : hasLeadingZeroes (natToDec n) = false := by
    unfold hasLeadingZeroes
    rcases hd : natToDec n with _ | ⟨c, cs⟩
    · rfl
    · rcases cs with _ | ⟨c2, cs2⟩
      · rfl
      · by_cases hn0 : n = 0
        · subst hn0
          rw [natToDec_lt_ten 0 (by omega)] at hd
          exact absurd hd (by simp)
        · have hne := natToDec_head_ne_zero n (by omega) c (c2 :: cs2) hd
          have hcd : isDig c = true := natToDec_digits n c (by rw [hd]; simp)
          have := digit_ne_zero_char c hcd hne
          simp [this]
  rw [if_neg (by rw [hlz]; simp)]
  unfold parseUint64
  have hne : (natToDec n).isEmpty = false := by
    rcases hd : natToDec n with _ | ⟨c, cs⟩
    · exact absurd hd (natToDec_ne_nil n)
    · rfl
  rw [if_neg (by rw [hne]; simp), decToNat_natToDec]
  rw [if_pos h64]

theorem newPRVersion_digits (ds : List Char) (hdig : ∀ c ∈ ds, isDig c = true)
    (hne : ds ≠ []) (hhead : ∀ c cs, ds = c :: cs → 1 ≤ dval c)
    (hlt : decToNat ds < 2 ^ 64) :
    newPRVersion ds = .ok (.num (decToNat ds)) := by
  unfold newPRVersion
  have hempty : ds.isEmpty = false := by
    rcases ds with _ | ⟨c, cs⟩
    · exact absurd rfl hne
    · rfl
  rw [if_neg (by rw [hempty]; simp)]
  have hco : containsOnly ds isDig = true := by
    unfold containsOnly
    rw [List.all_eq_true]
    exact hdig
  rw [if_pos hco]
  have hlz : hasLeadingZeroes ds = false := by
    unfold hasLeadingZeroes
    rcases ds with _ | ⟨c, cs⟩
    · rfl
    · rcases cs with _ | ⟨c2, cs2⟩
      · rfl
      · have hc1 : 1 ≤ dval c := hhead c (c2 :: cs2) rfl
        have hcd : isDig c = true := hdig c (by simp)
        simp [digit_ne_zero_char c hcd hc1]
  rw [if_neg (by rw [hlz]; simp)]
  unfold parseUint64
  rw [if_neg (by rw [hempty]; simp), if_pos hlt]

/-- Evaluation of `semver.Make` on the stripped remainder of a rendered
generic filename. -/
theorem semverMake_render_core (maj minr pat : Nat) (dTs com : List Char)
    (hmaj : maj < 2 ^ 64) (hminr : minr < 2 ^ 64) (hpat : pat < 2 ^ 64)
    (hts_dig : ∀ c ∈ dTs, isDig c = true) (hts_ne : dTs ≠ [])
    (hts_head : ∀ c cs, dTs = c :: cs → 1 ≤ dval c)
    (hts_lt : decToNat dTs < 2 ^ 64)
    (hcom_ne : com ≠ []) (hcom : ∀ c ∈ com, isPosixAlnum c = true) :
    semverMake (natToDec maj ++ '.' :: (natToDec minr ++ '.' ::
        (natToDec pat ++ '-' :: (dTs ++ '+' :: com)))) =
      .ok ⟨maj, minr, pat, [.num (decToNat dTs)], [com]⟩ := by
  have hmaj_ne := natToDec_ne_nil maj
  have hempty : (natToDec maj ++ '.' :: (natToDec minr ++ '.' ::
      (natToDec pat ++ '-' :: (dTs ++ '+' :: com)))).isEmpty = false := by
    rcases hm : natToDec maj with _ | ⟨c, cs⟩
    · exact absurd hm hmaj_ne
    · rfl
  have hsplit : splitNCh '.' (natToDec maj ++ '.' :: (natToDec minr ++ '.' ::
      (natToDec pat ++ '-' :: (dTs ++ '+' :: com)))) 3 =
      [natToDec maj, natToDec minr,
       natToDec pat ++ '-' :: (dTs ++ '+' :: com)] :=
    splitNCh_three '.' _ _ _
      (fun x hx => (digit_ne_special x (natToDec_digits maj x hx)).1)
      (fun x hx => (digit_ne_special x (natToDec_digits minr x hx)).1)
  have htail : natToDec pat ++ '-' :: (dTs ++ '+' :: com) =
      (natToDec pat ++ '-' :: dTs) ++ '+' :: com := by
    simp
  have hplus : firstIdxP (fun c => c == '+')
      (natToDec pat ++ '-' :: (dTs ++ '+' :: com)) =
      some ((natToDec pat ++ '-' :: dTs).length) := by
    rw [htail]
    apply firstIdxP_boundary
    · intro x hx
      rcases List.mem_append.1 hx with hxp | hxd
      · exact beq_eq_false_iff_ne.2
          (digit_ne_special x (natToDec_digits pat x hxp)).2.1
      · rcases List.mem_cons.1 hxd with hxm | hxt
        · rw [hxm]
          rfl
        · exact beq_eq_false_iff_ne.2
            (digit_ne_special x (hts_dig x hxt)).2.1
    · rfl
  have hdropP : (natToDec pat ++ '-' :: (dTs ++ '+' :: com)).drop
      ((natToDec pat ++ '-' :: dTs).length + 1) = com := by
    rw [htail]
    exact drop_at_concat _ _ _
  have htakeP : (natToDec pat ++ '-' :: (dTs ++ '+' :: com)).take
      ((natToDec pat ++ '-' :: dTs).length) = natToDec pat ++ '-' :: dTs := by
    rw [htail]
    exact take_at_concat _ _ _
  have hbuild : splitAllCh '.' com = [com] :=
    splitAllCh_single '.' com
      (fun x hx => isPosixAlnum_ne_dot x (hcom x hx))
  have hminus : firstIdxP (fun c => c == '-')
      (natToDec pat ++ '-' :: dTs) = some ((natToDec pat).length) := by
    apply firstIdxP_boundary
    · intro x hx
      exact beq_eq_false_iff_ne.2
        (digit_ne_special x (natToDec_digits pat x hx)).2.2.1
    · rfl
  have hdropM : (natToDec pat ++ '-' :: dTs).drop
      ((natToDec pat).length + 1) = dTs := drop_at_concat _ _ _
  have htakeM : (natToDec pat ++ '-' :: dTs).take
      ((natToDec pat).length) = natToDec pat := take_at_concat _ _ _
  have hpre : splitAllCh '.' dTs = [dTs] :=
    splitAllCh_single '.' dTs
      (fun x hx => (digit_ne_special x (hts_dig x hx)).1)
  have hprev : parsePre [dTs] = .ok [.num (decToNat dTs)] := by
    unfold parsePre
    rw [newPRVersion_digits dTs hts_dig hts_ne hts_head hts_lt]
    rfl
  have hcb : checkBuild [com] = .ok () := by
    unfold checkBuild
    have hcome : com.isEmpty = false := by
      rcases com with _ | ⟨c, cs⟩
      · exact absurd rfl hcom_ne
      · rfl
    rw [if_neg (by rw [hcome]; simp)]
    have hcoA : containsOnly com isSemverAlnum = true := by
      unfold containsOnly
      rw [List.all_eq_true]
      exact fun c hc => isSemverAlnum_of_posix c (hcom c hc)
    rw [if_neg (by rw [hcoA]; simp)]
    rfl
  unfold semverMake
  rw [if_neg (by rw [hempty]; simp)]
  simp only [hsplit, parseNumComponent_natToDec maj hmaj,
    parseNumComponent_natToDec minr hminr, hplus, hdropP, htakeP, hbuild,
    hminus, hdropM, htakeM, hpre, parseNumComponent_natToDec pat hpat,
    hprev, hcb]

/-- **C8 (amended).** Round trip of the generic convention
`<name>-<major>.<minor>.<patch>-<14-digit-timestamp>+<commit>.<ext>`:
for every digit-free name prefix, major version `≥ 1` (with the three
components representable as Go `uint64` values), valid 14-digit UTC timestamp
(four-digit year `≥ 1000` — the leading digit of a 14-digit timestamp is
nonzero), 7-character alphanumeric commit, and dot-free slash-free extension
that is not one of the two Linux package extensions, parsing the rendered
filename returns exactly that version, that timestamp, and that commit, with
no error. -/
theorem claim_C8_amended (nm com ext : List Char)
    (maj minr pat y mo d h mi s : Nat)
    (hnm : ∀ c ∈ nm, isDig c = false)
    (hmaj1 : 1 ≤ maj) (hmaj : maj < 2 ^ 64) (hminr : minr < 2 ^ 64)
    (hpat : pat < 2 ^ 64)
    (hcomlen : com.length = 7) (hcom : ∀ c ∈ com, isPosixAlnum c = true)
    (hext : ∀ c ∈ ext, c ≠ '.' ∧ c ≠ '/')
    (hy1 : 1000 ≤ y) (hy2 : y ≤ 9999) (hmo1 : 1 ≤ mo) (hmo2 : mo ≤ 12)
    (hd1 : 1 ≤ d) (hd2 : d ≤ daysInMonth y mo) (hh : h ≤ 23) (hmi : mi ≤ 59)
    (hsx : s ≤ 59)
    (hdeb : hasSuffixCL (renderGeneric nm maj minr pat y mo d h mi s com ext)
      (cl ".deb") = false)
    (hrpm : hasSuffixCL (renderGeneric nm maj minr pat y mo d h mi s com ext)
      (cl ".rpm") = false) :
    parse (renderGeneric nm maj minr pat y mo d h mi s com ext) =
      .ok ⟨verList ⟨maj, minr, pat,
          [PRVersion.num (decToNat (ts14 y mo d h mi s))], [com]⟩,
        mkUTC y mo d h mi s, com, none⟩ := by
  have hparse : parse (renderGeneric nm maj minr pat y mo d h mi s com ext) =
      .ok (parseGeneral (renderGeneric nm maj minr pat y mo d h mi s com ext)) := by
    simp [parse, hdeb, hrpm]
  have hshape : renderGeneric nm maj minr pat y mo d h mi s com ext =
      (nm ++ ['-']) ++ (natToDec maj ++ '.' :: (natToDec minr ++ '.' ::
        (natToDec pat ++ '-' :: (ts14 y mo d h mi s ++ '+' ::
          (com ++ '.' :: ext))))) := by
    simp [renderGeneric]
  have hts_ne : ts14 y mo d h mi s ≠ [] := by
    intro hnil
    unfold ts14 at hnil
    rcases hyy : natToDec y with _ | ⟨c, cs⟩
    · exact absurd hyy (natToDec_ne_nil y)
    · rw [hyy] at hnil
      exact absurd hnil (by simp)
  have hts_len : (ts14 y mo d h mi s).length = 14 :=
    ts14_length y mo d h mi s hy1 hy2 (by omega)
      (by have := daysInMonth_le y mo; omega) (by omega) (by omega) (by omega)
  have hts_lt : decToNat (ts14 y mo d h mi s) < 2 ^ 64 := by
    have h1 := decToNat_lt (ts14 y mo d h mi s) (ts14_digits y mo d h mi s)
    rw [hts_len] at h1
    calc decToNat (ts14 y mo d h mi s) < 10 ^ 14 := h1
      _ < 2 ^ 64 := by norm_num
  have hcom_ne : com ≠ [] := by
    intro hnil
    rw [hnil] at hcomlen
    simp at hcomlen
  have hsv := semverMake_render_core maj minr pat (ts14 y mo d h mi s) com
    hmaj hminr hpat (ts14_digits y mo d h mi s) hts_ne
    (ts14_head y mo d h mi s hy1) hts_lt hcom_ne hcom
  rcases hdm : natToDec maj with _ | ⟨c0, cs0⟩
  · exact absurd hdm (natToDec_ne_nil maj)
  have hc0dig : isDig c0 = true :=
    natToDec_digits maj c0 (by rw [hdm]; simp)
  have hc0pos : 1 ≤ dval c0 := natToDec_head_ne_zero maj hmaj1 c0 cs0 hdm
  have hidx : firstIdxP isDig19
      (renderGeneric nm maj minr pat y mo d h mi s com ext) =
      some ((nm ++ ['-']).length) := by
    rw [hshape, hdm]
    have hassoc : ((c0 :: cs0) ++ '.' :: (natToDec minr ++ '.' ::
        (natToDec pat ++ '-' :: (ts14 y mo d h mi s ++ '+' ::
          (com ++ '.' :: ext))))) = c0 :: (cs0 ++ '.' :: (natToDec minr ++ '.' ::
        (natToDec pat ++ '-' :: (ts14 y mo d h mi s ++ '+' ::
          (com ++ '.' :: ext))))) := by
      simp
    rw [hassoc]
    apply firstIdxP_boundary
    · intro x hx
      rcases List.mem_append.1 hx with hxn | hxd
      · exact isDig19_false_of_isDig_false x (hnm x hxn)
      · rcases List.mem_singleton.1 hxd with rfl
        rfl
    · exact isDig19_of_isDig c0 hc0dig hc0pos
  have hdrop : (renderGeneric nm maj minr pat y mo d h mi s com ext).drop
      ((nm ++ ['-']).length) = natToDec maj ++ '.' :: (natToDec minr ++ '.' ::
        (natToDec pat ++ '-' :: (ts14 y mo d h mi s ++ '+' ::
          (com ++ '.' :: ext)))) := by
    rw [hshape]
    exact List.drop_left _ _
  have hrem : removeExt (natToDec maj ++ '.' :: (natToDec minr ++ '.' ::
      (natToDec pat ++ '-' :: (ts14 y mo d h mi s ++ '+' ::
        (com ++ '.' :: ext))))) = natToDec maj ++ '.' :: (natToDec minr ++ '.' ::
      (natToDec pat ++ '-' :: (ts14 y mo d h mi s ++ '+' :: com))) := by
    have hsh : (natToDec maj ++ '.' :: (natToDec minr ++ '.' ::
        (natToDec pat ++ '-' :: (ts14 y mo d h mi s ++ '+' ::
          (com ++ '.' :: ext))))) = (natToDec maj ++ '.' :: (natToDec minr ++ '.' ::
        (natToDec pat ++ '-' :: (ts14 y mo d h mi s ++ '+' :: com)))) ++
        '.' :: ext := by
      simp
    rw [hsh]
    exact removeExt_concat _ ext hext
  have hnum : preNumOf ⟨maj, minr, pat,
      [PRVersion.num (decToNat (ts14 y mo d h mi s))], [com]⟩ =
      decToNat (ts14 y mo d h mi s) := rfl
  have ht : timeParse14 (natToDec (preNumOf ⟨maj, minr, pat,
      [PRVersion.num (decToNat (ts14 y mo d h mi s))], [com]⟩)) =
      some (mkUTC y mo d h mi s) := by
    rw [hnum, natToDec_decToNat_ts14 y mo d h mi s hy1]
    exact timeParse14_ts14 y mo d h mi s hy1 hy2 hmo1 hmo2 hd1 hd2 hh hmi hsx
  have hgen := parseGeneral_ok_eq
    (renderGeneric nm maj minr pat y mo d h mi s com ext)
    ((nm ++ ['-']).length)
    ⟨maj, minr, pat, [PRVersion.num (decToNat (ts14 y mo d h mi s))], [com]⟩
    (mkUTC y mo d h mi s) hidx
    (by rw [hdrop, hrem]; exact hsv) rfl ht
  have hcommit : commitOf ⟨maj, minr, pat,
      [PRVersion.num (decToNat (ts14 y mo d h mi s))], [com]⟩ = com := by
    unfold commitOf
    have hjs : joinSpace [com] = com := rfl
    simp only [hjs]
    rw [if_neg (by omega)]
  rw [hparse, hgen, hcommit]

/-- **C8 (counterexample).** The claim quantifies over *every* version
triple.  With major version `0`, the leading-nonzero-digit search of
`version.Parse` (`strings.IndexAny(name, "123456789")`) skips the `0` and
lands inside the minor version, so the remainder `"1.0-..."` is not a
`Major.Minor.Patch` triple and parsing fails — the round trip does not
hold. -/
theorem claim_C8_counterexample :
    renderGeneric (cl "App") 0 1 0 2023 1 1 12 0 0 (cl "abc1234") (cl "dmg") =
      cl "App-0.1.0-20230101120000+abc1234.dmg" ∧
    parse (cl "App-0.1.0-20230101120000+abc1234.dmg") =
      .ok ⟨[], epochTime, [], some "No Major.Minor.Patch elements found"⟩ := by
  exact ⟨rfl, rfl⟩

/-- Witness for C8 (amended) at
`App-1.2.0-20230101120000+abc1234.dmg`. -/
theorem claim_C8_amended_witness :
    parse (renderGeneric (cl "App") 1 2 0 2023 1 1 12 0 0 (cl "abc1234")
        (cl "dmg")) =
      .ok ⟨verList ⟨1, 2, 0,
          [PRVersion.num (decToNat (ts14 2023 1 1 12 0 0))], [cl "abc1234"]⟩,
        mkUTC 2023 1 1 12 0 0, cl "abc1234", none⟩ :=
  claim_C8_amended (cl "App") (cl "abc1234") (cl "dmg") 1 2 0 2023 1 1 12 0 0
    (by decide) (by decide) (by decide) (by decide) (by decide) (by decide)
    (by decide) (by decide) (by decide) (by decide) (by decide) (by decide)
    (by decide) (by decide) (by decide) (by decide) (by decide) (by decide)
    (by decide)

end KeybaseRelease
